import Mathlib

/-!
# OpenCLKeyhunt miner: hash engine, job manager, job parser, keypair pool,
submission, telemetry and configuration

A shallow embedding of the C sources (`src/mining.c`, `include/simd.h`,
`src/main.c`, `src/network.c`, `src/keypair_pool.c`, `src/config.c`,
`src/report.c`) together with the properties stated about them.

Conventions of the embedding

* `uint8_t` and `char` are `Byte = Fin 256`; arithmetic on them is done on
  `Nat` with an explicit `% 256` where C truncates.
* A fixed-size array (`uint8_t hash[32]`) is a `List Byte`; its size is a
  hypothesis of the theorems that need it.
* A C string (`char*`) is the list of its characters before the terminating
  NUL; a nullable `char*` is an `Option`.
* The `double` values of a job and a solution are only copied, so their type
  is a parameter `R`; the one `double` that is computed, the reported hash
  rate, is an exact rational.
* SHA-256, the curve library, the random number generator and the HTTP
  client are parameters.
* Heap allocation and thread creation are assumed to succeed.
-/

namespace Miner

/-- One `uint8_t` / `char`. -/
abbrev Byte := Fin 256

/-- The characters of a C string, terminator excluded. -/
abbrev CString := List Byte

/-! ## Difficulty check (`mine_block`, mining.c 133-143) -/

/-- The loop `for (i = ...; i < 32; i++)` of the difficulty check, with `n`
iterations left and loop index `i`.  The result is the final value of
`meets_difficulty`, which starts out `true`. -/
def meets_difficulty_loop (hash diff : List Byte) : Nat → Nat → Bool
  | 0, _ => true
  | n + 1, i =>
    if hash.getD i 0 ≠ diff.getD i 0 then
      if hash.getD i 0 > diff.getD i 0 then false else true
    else meets_difficulty_loop hash diff n (i + 1)

/-- Value of `meets_difficulty` after the loop over the 32 bytes. -/
def meets_difficulty (hash diff : List Byte) : Bool :=
  meets_difficulty_loop hash diff 32 0

/-- A byte string read as a big-endian unsigned integer: the first byte is
the most significant one. -/
def beValue : List Byte → Nat
  | [] => 0
  | b :: l => b.val * 256 ^ l.length + beValue l

/-! ## Hash comparison (`compare_hash_simd`, simd.h 17-40) -/

/-- The scalar fallback of `compare_hash_simd`: the loop over the 32 bytes
with `n` iterations left and loop index `i`; falling out of the loop
returns 0. -/
def compare_hash_scalar_loop (hash1 hash2 : List Byte) : Nat → Nat → Int
  | 0, _ => 0
  | n + 1, i =>
    if hash1.getD i 0 ≠ hash2.getD i 0 then
      if hash1.getD i 0 < hash2.getD i 0 then -1 else 1
    else compare_hash_scalar_loop hash1 hash2 n (i + 1)

/-- The 64 lanes that `_mm512_loadu_si512` reads from the memory starting at
a pointer. -/
def mm512_loadu_si512 (mem : List Byte) : List Byte :=
  (List.range 64).map fun k => mem.getD k 0

/-- The mask of `_mm512_cmpeq_epi8_mask`: bit `k` is set exactly when lane
`k` of the two vectors is equal (lane 0 is the lowest bit). -/
def mm512_cmpeq_epi8_mask : List Byte → List Byte → Nat
  | a :: v1, b :: v2 => (if a = b then 1 else 0) + 2 * mm512_cmpeq_epi8_mask v1 v2
  | _, _ => 0

/-- Trailing zero bits of `x`, looking at no more than `fuel` bits. -/
def ctz_bits : Nat → Nat → Nat
  | 0, _ => 0
  | fuel + 1, x => if x % 2 = 1 then 0 else 1 + ctz_bits fuel (x / 2)

/-- The builtin `__builtin_ctzll` on a 64-bit value. -/
def builtin_ctzll (x : Nat) : Nat := ctz_bits 64 (x % 2 ^ 64)

/-- The `__AVX512F__` branch of `compare_hash_simd`.  `mem1` and `mem2` are
the memory contents starting at the two pointers: the load reads 64 bytes of
each, which is 32 bytes more than a hash holds. -/
def compare_hash_avx512 (mem1 mem2 : List Byte) : Int :=
  let mask := mm512_cmpeq_epi8_mask (mm512_loadu_si512 mem1) (mm512_loadu_si512 mem2)
  if mask = 0xFFFFFFFFFFFFFFFF then 0
  else
    let first_diff := builtin_ctzll (0xFFFFFFFFFFFFFFFF - mask)
    if mem1.getD first_diff 0 < mem2.getD first_diff 0 then -1 else 1

/-- The function `compare_hash_simd`; `avx512` tells whether `__AVX512F__`
was defined at build time, `mem1` and `mem2` are the memory contents
starting at `hash1` and `hash2`. -/
def compare_hash_simd (avx512 : Bool) (mem1 mem2 : List Byte) : Int :=
  if avx512 then compare_hash_avx512 mem1 mem2
  else compare_hash_scalar_loop mem1 mem2 32 0

/-- The function `is_hash_better` of mining.c. -/
def is_hash_better (avx512 : Bool) (mem1 mem2 : List Byte) : Bool :=
  decide (compare_hash_simd avx512 mem1 mem2 < 0)

/-- The functions `memcpy_simd` and `memcpy`: both branches copy exactly the
bytes `[0, len)` of `src` over those of `dest`. -/
def memcpy_simd (dest src : List Byte) (len : Nat) : List Byte :=
  src.take len ++ dest.drop len

/-- The function `memset`: the first `len` bytes of `dest` become `val`. -/
def memset (dest : List Byte) (val : Byte) (len : Nat) : List Byte :=
  List.replicate len val ++ dest.drop len

/-- What the build and the surrounding memory contribute to one comparison of
a digest with `g_best_hash`. -/
structure SimdEnv where
  /-- whether `__AVX512F__` is defined -/
  avx512 : Bool
  /-- the bytes that follow the stack array `hash` -/
  after_hash : List Byte
  /-- the bytes that follow the 32-byte heap block `g_best_hash` -/
  after_best : List Byte
deriving DecidableEq, Repr

/-- The best-hash update of `mine_block` (mining.c 126-131): the new contents
of `g_best_hash`. -/
def update_best_hash (env : SimdEnv) (hash g_best_hash : List Byte) : List Byte :=
  if is_hash_better env.avx512 (hash ++ env.after_hash) (g_best_hash ++ env.after_best) then
    memcpy_simd g_best_hash hash 32
  else g_best_hash

/-! ## Hex rendering and scanning (libc `sprintf`, `sscanf`) -/

/-- The character for one hex digit, lowercase: `'0'` is 48 and `'a'` is 97. -/
def hex_digit (n : Nat) : Byte :=
  if n < 10 then Fin.ofNat (48 + n) else Fin.ofNat (87 + n)

/-- The text written by `sprintf(buf, "%02x", b)` for a byte `b`. -/
def sprintf_02x (b : Byte) : CString :=
  [hex_digit (b.val / 16), hex_digit (b.val % 16)]

/-- The loop `for (i = ...; i < n; i++) sprintf(out + i*2, "%02x", src[i])`
with `n` iterations left and loop index `i`: the string left in `out`. -/
def hex_loop (src : List Byte) : Nat → Nat → CString
  | 0, _ => []
  | n + 1, i => sprintf_02x (src.getD i 0) ++ hex_loop src n (i + 1)

/-- The libc predicate `isspace` in the C locale. -/
def isspace (c : Byte) : Bool :=
  c.val = 32 || (9 ≤ c.val && c.val ≤ 13)

/-- The libc predicate `isxdigit`. -/
def isxdigit (c : Byte) : Bool :=
  (48 ≤ c.val && c.val ≤ 57) || (97 ≤ c.val && c.val ≤ 102) || (65 ≤ c.val && c.val ≤ 70)

/-- The value of a hex digit character (0 for any other character). -/
def hexval (c : Byte) : Nat :=
  if 48 ≤ c.val ∧ c.val ≤ 57 then c.val - 48
  else if 97 ≤ c.val ∧ c.val ≤ 102 then c.val - 87
  else if 65 ≤ c.val ∧ c.val ≤ 70 then c.val - 55
  else 0

/-- The call `sscanf(s, "%02hhx", &out)` (glibc): white space is skipped,
then at most two characters are read as an optionally signed hex number and
the value is stored modulo 256.  `none` means nothing was stored. -/
def sscanf_02hhx (s : CString) : Option Byte :=
  match s.dropWhile isspace with
  | [] => none
  | c :: t =>
    if c.val = 43 ∨ c.val = 45 then
      match t with
      | [] => none
      | d :: _ =>
        if isxdigit d then
          some (Fin.ofNat (if c.val = 45 then (256 - hexval d) % 256 else hexval d))
        else none
    else if isxdigit c then
      match t with
      | [] => some (Fin.ofNat (hexval c))
      | d :: _ =>
        if isxdigit d then some (Fin.ofNat ((16 * hexval c + hexval d) % 256))
        else some (Fin.ofNat (hexval c))
    else none

/-- The loop `for (i = ...; i < n; i++) sscanf(hex + i*2, "%02hhx", &dest[i])`
with `n` iterations left and loop index `i`: the final contents of `dest`.
A byte whose scan fails keeps its old value. -/
def sscanf_hex_loop (hex : CString) : Nat → Nat → List Byte → List Byte
  | 0, _, dest => dest
  | n + 1, i, dest =>
    sscanf_hex_loop hex n (i + 1)
      (match sscanf_02hhx (hex.drop (i * 2)) with
       | some v => dest.set i v
       | none => dest)

/-! ## C string functions -/

/-- Whether `s` starts with `needle`. -/
def starts_with : CString → CString → Bool
  | _, [] => true
  | [], _ :: _ => false
  | a :: s, b :: needle => a = b && starts_with s needle

/-- The function `strstr`: the rest of `hay` from its first occurrence of
`needle` on, or `none` (NULL). -/
def strstr : CString → CString → Option CString
  | [], needle => if starts_with [] needle then some [] else none
  | a :: hay, needle =>
    if starts_with (a :: hay) needle then some (a :: hay) else strstr hay needle

/-- The function `strchr` for a character other than NUL: the rest of `s`
from the first `c` on, or `none` (NULL). -/
def strchr : CString → Byte → Option CString
  | [], _ => none
  | a :: s, c => if a = c then some (a :: s) else strchr s c

/-- The string that `strncpy(dest, src, n)` leaves in a zero-terminated
`dest`. -/
def strncpy (src : CString) (n : Nat) : CString := src.take n

/-- The function `strcmp`: the difference of the first two characters that
differ, the end of a string counting as NUL. -/
def strcmp : CString → CString → Int
  | [], [] => 0
  | [], b :: _ => 0 - (b.val : Int)
  | a :: _, [] => (a.val : Int)
  | a :: s, b :: t => if a ≠ b then (a.val : Int) - (b.val : Int) else strcmp s t

/-- The string left by `snprintf(buf, size, "%s%s", a, b)`: at most
`size - 1` characters are kept. -/
def snprintf_ss (size : Nat) (a b : CString) : CString :=
  (a ++ b).take (size - 1)

/-- What glibc prints for `%s`: the string, or `(null)` for a NULL pointer. -/
def percent_s : Option CString → CString
  | some s => s
  | none => [40, 110, 117, 108, 108, 41]

/-! ## Data structures (miner.h) -/

/-- The struct `Keypair`. -/
structure Keypair where
  public_key : List Byte
  private_key : List Byte
deriving DecidableEq, Repr

/-- The struct `KeypairPool` (the mutex left out). -/
structure KeypairPool where
  keypairs : List Keypair
  size : Nat
  capacity : Nat
  current_index : Nat
deriving DecidableEq, Repr

/-- The struct `Job`. -/
structure Job (R : Type) where
  seed : Option CString
  diff : List Byte
  reward : R
  last_found : Nat
deriving DecidableEq, Repr

/-- The struct `Solution`. -/
structure Solution (R : Type) where
  public_key : List Byte
  private_key : List Byte
  hash : Option CString
  reward : R
deriving DecidableEq, Repr

/-! ## Keypair pool (`get_next_keypair`, keypair_pool.c 242-259) -/

/-- The function `get_next_keypair` on an allocated pool: the entry handed
out (`none` is NULL) and the pool afterwards.  The index arithmetic is that
of `size_t`; an index outside `keypairs` reads an empty entry. -/
def get_next_keypair (pool : KeypairPool) : Option Keypair × KeypairPool :=
  if pool.size = 0 then (none, pool)
  else
    (some (pool.keypairs.getD pool.current_index ⟨[], []⟩),
     { pool with current_index := ((pool.current_index + 1) % 2 ^ 64) % pool.size })

/-! ## One trial (`mine_block`, mining.c 100-160) -/

/-- The string `combined` built at mining.c 113-121 from the public key and
the seed. -/
def combined (public_key : List Byte) (seed : Option CString) : CString :=
  snprintf_ss 1024 (hex_loop public_key 65 0) (percent_s seed)

/-- The state `mine_block` reads and writes besides its arguments, and its
out-parameter. -/
structure MineState (R : Type) where
  pool : KeypairPool
  g_best_hash : List Byte
  solution : Solution R
deriving DecidableEq, Repr

/-- The function `mine_block`: its return value and the state afterwards. -/
def mine_block {R : Type} (sha256 : List Byte → List Byte) (env : SimdEnv) (job : Job R)
    (st : MineState R) : Bool × MineState R :=
  match get_next_keypair st.pool with
  | (none, pool) => (false, { st with pool := pool })
  | (some keypair, pool) =>
    let hash := sha256 (combined keypair.public_key job.seed)
    let best := update_best_hash env hash st.g_best_hash
    if meets_difficulty hash job.diff then
      (true,
       { pool := pool
         g_best_hash := best
         solution :=
           { public_key := memcpy_simd st.solution.public_key keypair.public_key 65
             private_key := memcpy_simd st.solution.private_key keypair.private_key 32
             hash := some (hex_loop hash 32 0)
             reward := job.reward } })
    else (false, { st with pool := pool, g_best_hash := best })

/-- The state after a sequence of calls of `mine_block` for the same job, one
per entry of `envs`. -/
def run_trials {R : Type} (sha256 : List Byte → List Byte) (job : Job R) :
    List SimdEnv → MineState R → MineState R
  | [], st => st
  | env :: envs, st => run_trials sha256 job envs (mine_block sha256 env job st).2

/-- The digests computed by `n` successive calls of `mine_block` that start
with the pool `pool`. -/
def trial_digests (sha256 : List Byte → List Byte) (seed : Option CString) :
    Nat → KeypairPool → List (List Byte)
  | 0, _ => []
  | n + 1, pool =>
    match get_next_keypair pool with
    | (none, pool1) => trial_digests sha256 seed n pool1
    | (some keypair, pool1) =>
      sha256 (combined keypair.public_key seed) :: trial_digests sha256 seed n pool1

/-! ## Job parser (`get_job`, network.c 64-137) -/

/-- The literal `"seed":"` with its quotes. -/
def SEED_KEY : CString := [34, 115, 101, 101, 100, 34, 58, 34]

/-- The literal `"diff":"` with its quotes. -/
def DIFF_KEY : CString := [34, 100, 105, 102, 102, 34, 58, 34]

/-- The literal `"reward":` with its quotes. -/
def REWARD_KEY : CString := [34, 114, 101, 119, 97, 114, 100, 34, 58]

/-- The literal `"lastFound":` with its quotes. -/
def LASTFOUND_KEY : CString := [34, 108, 97, 115, 116, 70, 111, 117, 110, 100, 34, 58]

/-- The double quote character. -/
def QUOTE : Byte := 34

/-- The seed extraction of `get_job` (network.c 84-97): the new value of
`job->seed`. -/
def extract_seed (response : CString) : Option CString :=
  match strstr response SEED_KEY with
  | none => none
  | some seed_start =>
    let seed_start := seed_start.drop 8
    match strchr seed_start QUOTE with
    | none => none
    | some seed_end => some (strncpy seed_start (seed_start.length - seed_end.length))

/-- The difficulty extraction of `get_job` (network.c 99-113): the new value
of `job->diff`, which starts out as `diff`. -/
def extract_diff (response : CString) (diff : List Byte) : List Byte :=
  match strstr response DIFF_KEY with
  | none => diff
  | some diff_start =>
    let diff_start := diff_start.drop 8
    match strchr diff_start QUOTE with
    | none => diff
    | some diff_end =>
      let diff_len := diff_start.length - diff_end.length
      let diff_hex := strncpy diff_start (if diff_len < 64 then diff_len else 64)
      sscanf_hex_loop diff_hex 32 0 diff

/-- The function `get_job`, given the result of `make_request` (`none` is
NULL).  `atof` and `strtoull` are the libc conversions, `uninit` is what the
freshly allocated `Job` holds before any field is written. -/
def get_job {R : Type} (atof : CString → R) (strtoull : CString → Nat) (uninit : Job R)
    (response : Option CString) : Option (Job R) :=
  match response with
  | none => none
  | some response =>
    let seed := extract_seed response
    let diff := extract_diff response uninit.diff
    let reward :=
      match strstr response REWARD_KEY with
      | none => uninit.reward
      | some reward_start => atof (reward_start.drop 9)
    let last_found :=
      match strstr response LASTFOUND_KEY with
      | none => uninit.last_found
      | some last_found_start => strtoull (last_found_start.drop 12)
    match seed with
    | none => none
    | some seed =>
      some { seed := some seed, diff := diff, reward := reward, last_found := last_found }

/-! ## Job manager (`job_update_thread`, main.c 76-141) -/

/-- The job slot `*data->job` together with `g_best_hash`. -/
structure JobState (R : Type) where
  job : Job R
  g_best_hash : List Byte
deriving DecidableEq, Repr

/-- The test of main.c 86 that decides whether the polled job is installed. -/
def job_changed {R : Type} (job new_job : Job R) : Bool :=
  match job.seed, new_job.seed with
  | some s, some t => decide (strcmp s t ≠ 0)
  | _, _ => true

/-- One iteration of the loop of `job_update_thread`, given the result
`new_job` of `get_job`. -/
def job_update_step {R : Type} (new_job : Option (Job R)) (st : JobState R) : JobState R :=
  match new_job with
  | none => st
  | some new_job =>
    if job_changed st.job new_job then
      { job := new_job, g_best_hash := memset st.g_best_hash 255 32 }
    else st

/-- One iteration of the loop of `job_update_thread`, given the result
`response` of `make_request`. -/
def job_update_thread {R : Type} (atof : CString → R) (strtoull : CString → Nat)
    (uninit : Job R) (response : Option CString) (st : JobState R) : JobState R :=
  job_update_step (get_job atof strtoull uninit response) st

/-- The job slot and best hash set up by `main` (main.c 252-264): the seed is
`wait`. -/
def initial_state {R : Type} (zero : R) : JobState R :=
  { job := { seed := some [119, 97, 105, 116], diff := List.replicate 32 0,
             reward := zero, last_found := 0 }
    g_best_hash := memset (List.replicate 32 0) 255 32 }

/-! ## Specification vocabulary -/

/-- The first position at which two byte strings differ decides: negative,
zero or positive as the first is smaller, equal or larger there. -/
def first_diff_cmp : List Byte → List Byte → Int
  | a :: s, b :: t => if a ≠ b then (if a < b then -1 else 1) else first_diff_cmp s t
  | _, _ => 0

/-- The 32 bytes 0xFF. -/
def all_ff : List Byte := List.replicate 32 255

/-- The sixteen characters `0123456789abcdef`. -/
def lower_hex_digits : CString :=
  [48, 49, 50, 51, 52, 53, 54, 55, 56, 57, 97, 98, 99, 100, 101, 102]

/-- Lowercase hex encoding of a byte string: two characters per byte, the
high nibble first. -/
def hex_encode : List Byte → CString
  | [] => []
  | b :: bs =>
    lower_hex_digits.getD (b.val / 16) 0 :: lower_hex_digits.getD (b.val % 16) 0 :: hex_encode bs

/-- Hex decoding: each pair of hex digits gives one byte, the first digit
being the high nibble. -/
def hex_decode : CString → List Byte
  | a :: b :: rest => Fin.ofNat (16 * hexval a + hexval b) :: hex_decode rest
  | _ => []

/-- The bytes of an ASCII string literal. -/
def cstr (s : String) : CString := s.toList.map fun c => Fin.ofNat c.toNat

/-! ## Key generation (`pregenerate_keypairs`, keypair_pool.c 157-240) -/

/-- The loop of keypair_pool.c 204-226 with `n` iterations left, loop index
`i` and running `start_index`: the `(start_index, count)` handed to each
generator thread, in thread order. -/
def thread_ranges_loop (keypairs_per_thread remaining_keypairs : Nat) :
    Nat → Nat → Nat → List (Nat × Nat)
  | 0, _, _ => []
  | n + 1, i, start_index =>
    (start_index, keypairs_per_thread + (if i < remaining_keypairs then 1 else 0)) ::
      thread_ranges_loop keypairs_per_thread remaining_keypairs n (i + 1)
        (start_index + (keypairs_per_thread + (if i < remaining_keypairs then 1 else 0)))

/-- The number of generator threads, `num_threads`. -/
def num_threads : Nat := 24

/-- The `(start_index, count)` of the 24 generator threads for a request of
`count` keypairs (keypair_pool.c 199-226). -/
def thread_ranges (count : Nat) : List (Nat × Nat) :=
  thread_ranges_loop (count / num_threads) (count % num_threads) num_threads 0 0

/-- The random number generator and the curve library as seen by the
generator threads. -/
structure GenOracle where
  /-- `RAND_bytes(.., 32)` for the `attempt`-th draw for pool entry `index`:
  the 32 bytes written, or `none` when it does not return 1 -/
  rand_bytes : Nat → Nat → Option (List Byte)
  /-- `secp256k1_ec_seckey_verify` -/
  seckey_verify : List Byte → Bool
  /-- `secp256k1_ec_pubkey_create`: the public key, or `none` for a 0 return -/
  pubkey_create : List Byte → Option (List Byte)
  /-- `secp256k1_ec_pubkey_serialize`, uncompressed: the 65 bytes written, or
  `none` for a 0 return -/
  pubkey_serialize : List Byte → Option (List Byte)
  /-- whether `secp256k1_context_create` succeeds in the thread whose range
  starts at the given index -/
  context_create : Nat → Bool

/-- The array `keypairs` with the private key of entry `index` overwritten. -/
def set_private_key (keypairs : List Keypair) (index : Nat) (sk : List Byte) : List Keypair :=
  keypairs.set index { keypairs.getD index ⟨[], []⟩ with private_key := sk }

/-- The array `keypairs` with the public key of entry `index` overwritten. -/
def set_public_key (keypairs : List Keypair) (index : Nat) (pk : List Byte) : List Keypair :=
  keypairs.set index { keypairs.getD index ⟨[], []⟩ with public_key := pk }

/-- The `do ... while` loop of keypair_pool.c 110-116 for entry `index`, with
`fuel` draws left and `attempt` draws made.  `some (true, a)` is a key
accepted by the verifier, `some (false, a)` is the return on a failed
`RAND_bytes`, `none` means the loop is still running after `fuel` draws;
`a` is the array afterwards. -/
def draw_private_key (o : GenOracle) (index : Nat) :
    Nat → Nat → List Keypair → Option (Bool × List Keypair)
  | 0, _, _ => none
  | fuel + 1, attempt, keypairs =>
    match o.rand_bytes index attempt with
    | none => some (false, keypairs)
    | some sk =>
      if o.seckey_verify sk then some (true, set_private_key keypairs index sk)
      else draw_private_key o index fuel (attempt + 1) (set_private_key keypairs index sk)

/-- The body of the inner `for` loop of `generate_keypairs_thread`
(keypair_pool.c 106-131) for entry `index`: `some (false, a)` is one of the
three `return NULL` exits. -/
def generate_entry (o : GenOracle) (fuel index : Nat) (keypairs : List Keypair) :
    Option (Bool × List Keypair) :=
  match draw_private_key o index fuel 0 keypairs with
  | none => none
  | some (false, keypairs) => some (false, keypairs)
  | some (true, keypairs) =>
    match o.pubkey_create (keypairs.getD index ⟨[], []⟩).private_key with
    | none => some (false, keypairs)
    | some pub =>
      match o.pubkey_serialize pub with
      | none => some (false, keypairs)
      | some pk => some (true, set_public_key keypairs index pk)

/-- The loops of `generate_keypairs_thread` over its entries, with `n` entries
left and `generated` entries done; the batches of 10000 only group the
progress output and are not modelled.  The flag tells whether the thread ran
to its end (`true`) or left through a `return NULL` in the loop (`false`). -/
def generate_entries (o : GenOracle) (fuel start_index : Nat) :
    Nat → Nat → List Keypair → Option (Bool × List Keypair)
  | 0, _, keypairs => some (true, keypairs)
  | n + 1, generated, keypairs =>
    match generate_entry o fuel (start_index + generated) keypairs with
    | none => none
    | some (false, keypairs) => some (false, keypairs)
    | some (true, keypairs) => generate_entries o fuel start_index n (generated + 1) keypairs

/-- The function `generate_keypairs_thread` for the range
`(start_index, count)`. -/
def generate_keypairs_thread (o : GenOracle) (fuel start_index count : Nat)
    (keypairs : List Keypair) : Option (Bool × List Keypair) :=
  if o.context_create start_index then generate_entries o fuel start_index count 0 keypairs
  else some (false, keypairs)

/-- The generator threads run one after the other (they write disjoint
entries); what a thread returns is not looked at, as `pthread_join(.., NULL)`
drops it. -/
def run_generator_threads (o : GenOracle) (fuel : Nat) :
    List (Nat × Nat) → List Keypair → Option (List Keypair)
  | [], keypairs => some keypairs
  | (start_index, count) :: rest, keypairs =>
    match generate_keypairs_thread o fuel start_index count keypairs with
    | none => none
    | some (_, keypairs) => run_generator_threads o fuel rest keypairs

/-- The function `pregenerate_keypairs` on an allocated pool, every
`pthread_create` succeeding: the pool afterwards, or `none` when a draw loop
is still running after `fuel` draws. -/
def pregenerate_keypairs (o : GenOracle) (fuel : Nat) (pool : KeypairPool) (count : Nat) :
    Option KeypairPool :=
  match run_generator_threads o fuel
      (thread_ranges (if count > pool.capacity then pool.capacity else count))
      pool.keypairs with
  | none => none
  | some keypairs =>
    some { pool with
      keypairs := keypairs
      size := if count > pool.capacity then pool.capacity else count }

/-- A sample oracle whose random number generator fails on every call; its
verifier rejects the all-zero key. -/
def failing_rng : GenOracle :=
  { rand_bytes := fun _ _ => none
    seckey_verify := fun sk => decide (sk ≠ List.replicate 32 0)
    pubkey_create := fun sk => some sk
    pubkey_serialize := fun pub => some (4 :: pub)
    context_create := fun _ => true }

/-! ## Configuration (miner.h, config.c) -/

/-- The anonymous struct `reporting` of `MinerConfig`. -/
structure Reporting where
  report_server : CString
  report_user : CString
deriving DecidableEq, Repr

/-- The struct `MinerConfig`; the `int` fields are integers in the range of
a 32-bit `int`. -/
structure MinerConfig where
  server : CString
  rewards_dir : CString
  on_mined : CString
  thread_count : Int
  job_interval : Int
  report_interval : Int
  reporting : Reporting
  pool_secret : CString
deriving DecidableEq, Repr

/-- The default values that `load_config` starts from (config.c 64-73). -/
def default_config : MinerConfig :=
  { server := cstr "https://clc.ix.tc"
    rewards_dir := cstr "./rewards"
    on_mined := []
    thread_count := -1
    job_interval := 1
    report_interval := 10
    reporting := { report_server := [], report_user := [] }
    pool_secret := [] }

/-- The function `trim`: leading white space is skipped, then trailing white
space is cut off, the first remaining character staying in any case. -/
def trim (str : CString) : CString :=
  match str.dropWhile isspace with
  | [] => []
  | c :: rest => c :: (rest.reverse.dropWhile isspace).reverse

/-- The function `get_value`: the trimmed text after the first `=`, without
its double quotes when it starts and ends with one; `none` is NULL. -/
def get_value (line : CString) : Option CString :=
  match strchr line 61 with
  | none => none
  | some equal =>
    let value := trim (equal.drop 1)
    if value.length ≥ 2 ∧ value.head? = some QUOTE ∧ value.getLast? = some QUOTE then
      some ((value.take (value.length - 1)).drop 1)
    else some value

/-- The function `strncmp`: like `strcmp`, looking at no more than `n`
characters. -/
def strncmp : CString → CString → Nat → Int
  | _, _, 0 => 0
  | [], [], _ + 1 => 0
  | [], b :: _, _ + 1 => 0 - (b.val : Int)
  | a :: _, [], _ + 1 => (a.val : Int)
  | a :: s, b :: t, n + 1 => if a ≠ b then (a.val : Int) - (b.val : Int) else strncmp s t n

/-- The body of the `while (fgets(..))` loop of `load_config` (config.c 77-113)
for one line: the configuration afterwards.  `atoi` is the libc conversion;
`none` stands for a NULL pointer handed to `strdup` or `atoi`, which is what
happens when `get_value` finds no `=`. -/
def load_config_line (atoi : CString → Int) (config : MinerConfig) (line : CString) :
    Option MinerConfig :=
  let trimmed := trim line
  if trimmed.head? = some 35 ∨ trimmed = [] then some config
  else if strncmp trimmed (cstr "server =") 8 = 0 then
    (get_value trimmed).map fun v => { config with server := v }
  else if strncmp trimmed (cstr "rewards_dir =") 13 = 0 then
    (get_value trimmed).map fun v => { config with rewards_dir := v }
  else if strncmp trimmed (cstr "thread =") 8 = 0 then
    (get_value trimmed).map fun v => { config with thread_count := atoi v }
  else if strncmp trimmed (cstr "job_interval =") 14 = 0 then
    (get_value trimmed).map fun v => { config with job_interval := atoi v }
  else if strncmp trimmed (cstr "report_interval =") 16 = 0 then
    (get_value trimmed).map fun v => { config with report_interval := atoi v }
  else if strncmp trimmed (cstr "on_mined =") 10 = 0 then
    (get_value trimmed).map fun v => { config with on_mined := v }
  else if strncmp trimmed (cstr "report_server =") 14 = 0 then
    (get_value trimmed).map fun v =>
      { config with reporting := { config.reporting with report_server := v } }
  else if strncmp trimmed (cstr "report_user =") 12 = 0 then
    (get_value trimmed).map fun v =>
      { config with reporting := { config.reporting with report_user := v } }
  else if strncmp trimmed (cstr "pool_secret =") 13 = 0 then
    (get_value trimmed).map fun v => { config with pool_secret := v }
  else some config

/-- The lines of a configuration file handled one after the other, as the
loop of `load_config` does. -/
def load_config_lines (atoi : CString → Int) :
    List CString → MinerConfig → Option MinerConfig
  | [], config => some config
  | line :: lines, config =>
    match load_config_line atoi config line with
    | none => none
    | some config => load_config_lines atoi lines config

/-! ## Submission (`submit_solution`, network.c 139-226) -/

/-- OpenSSL, libsecp256k1 and curl as seen by `submit_solution`. -/
structure SubmitOracle where
  /-- SHA-256 -/
  sha256 : List Byte → List Byte
  /-- `secp256k1_ecdsa_sign` on a 32-byte hash and a 32-byte key: `none` for a
  0 return -/
  ecdsa_sign : List Byte → List Byte → Option (List Byte)
  /-- `secp256k1_ecdsa_signature_serialize_der`: the `der_len` bytes written
  to `sig_der`, or `none` for a 0 return -/
  serialize_der : List Byte → Option (List Byte)
  /-- `make_request`: the response body, or `none` for NULL -/
  make_request : CString → Option CString

/-- The string `public_key_hex` of `submit_solution` (network.c 145-149). -/
def public_key_hex {R : Type} (solution : Solution R) : CString :=
  hex_loop solution.public_key 65 0

/-- The string `private_key_hex` of `submit_solution` (network.c 151-155). -/
def private_key_hex {R : Type} (solution : Solution R) : CString :=
  hex_loop solution.private_key 32 0

/-- The array `privkey_bytes` after the loop of network.c 157-161; `uninit` is
what the array holds before. -/
def privkey_bytes {R : Type} (solution : Solution R) (uninit : List Byte) : List Byte :=
  sscanf_hex_loop (private_key_hex solution) 32 0 uninit

/-- The string `url` built by `snprintf(url, sizeof(url), ...)` at
network.c 198-210, `url` being a `char[2048]`; `signature` is the hex text of
the DER signature. -/
def submit_url {R : Type} (config : MinerConfig) (solution : Solution R)
    (signature : CString) : CString :=
  if config.pool_secret.length > 0 then
    (config.server ++ cstr "/challenge-solved?holder=" ++ public_key_hex solution ++
      cstr "&sign=" ++ signature ++ cstr "&hash=" ++ percent_s solution.hash ++
      cstr "&poolsecret=" ++ config.pool_secret ++ cstr "&key=" ++
      private_key_hex solution).take (2048 - 1)
  else
    (config.server ++ cstr "/challenge-solved?holder=" ++ public_key_hex solution ++
      cstr "&sign=" ++ signature ++ cstr "&hash=" ++ percent_s solution.hash).take (2048 - 1)

/-- The function `submit_solution`: its return value and the URLs it
requested, in order.  `uninit` is what `privkey_bytes` holds before it is
filled. -/
def submit_solution {R : Type} (o : SubmitOracle) (uninit : List Byte) (config : MinerConfig)
    (solution : Solution R) : Bool × List CString :=
  match o.ecdsa_sign (o.sha256 (public_key_hex solution)) (privkey_bytes solution uninit) with
  | none => (false, [])
  | some sig =>
    match o.serialize_der sig with
    | none => (false, [])
    | some sig_der =>
      let url := submit_url config solution (hex_loop sig_der sig_der.length 0)
      match o.make_request url with
      | none => (false, [url])
      | some response => ((strstr response (cstr "success")).isSome, [url])

/-- The submission URL as the wire protocol words it: the three parameters
`holder`, `sign` and `hash`, followed by `poolsecret` and `key` when the pool
secret is not empty. -/
def expected_url (server : CString) (public_key private_key : List Byte)
    (signature hash pool_secret : CString) : CString :=
  server ++ cstr "/challenge-solved?holder=" ++ hex_encode public_key ++ cstr "&sign=" ++
    signature ++ cstr "&hash=" ++ hash ++
    (if pool_secret = [] then []
     else cstr "&poolsecret=" ++ pool_secret ++ cstr "&key=" ++ hex_encode private_key)

/-! ## Telemetry (`report_status`, report.c; the loops of main.c 143-207) -/

/-- The value `hash_rate` computed at report.c 20, in exact arithmetic. -/
def report_hash_rate (hash_count : Nat) : ℚ := (hash_count : ℚ) / 3

/-- Whether `report_status` gets as far as building the report URL: both the
report server and the report user are set (report.c 10-17). -/
def report_status_reports (config : MinerConfig) : Bool :=
  !(config.reporting.report_server.length = 0) && !(config.reporting.report_user.length = 0)

/-- The speed that one iteration of `report_thread` puts into the report URL
for the sampled count `hash_count` (main.c 197-198, report.c 10-36), in exact
arithmetic; `none` when nothing is reported. -/
def report_thread_speed (config : MinerConfig) (hash_count : Nat) : Option ℚ :=
  if config.reporting.report_server.length > 0 then
    if report_status_reports config then some (report_hash_rate hash_count) else none
  else none

/-- The steps that touch the shared counter `*data->hash_count`. -/
inductive CounterStep where
  /-- a mining worker folds its 100 local attempts in (main.c 65-70) -/
  | worker_fold
  /-- one iteration of `hash_rate_thread` (main.c 147-151) -/
  | hash_rate_tick
  /-- one iteration of `report_thread` (main.c 185-190) -/
  | report_tick
deriving DecidableEq, Repr

/-- The value of the 64-bit counter `hash_count` after one step. -/
def counter_step (hash_count : Nat) : CounterStep → Nat
  | .worker_fold => (hash_count + 100) % 2 ^ 64
  | .hash_rate_tick => 0
  | .report_tick => 0

/-- The count that a step reads out of `hash_count`, if it reads it: the
argument of `print_hash_rate` or of `report_status`. -/
def counter_read (hash_count : Nat) : CounterStep → Option Nat
  | .worker_fold => none
  | .hash_rate_tick => some hash_count
  | .report_tick => some hash_count

/-! ## Worker threads of `main` (main.c 273-321) -/

/-- The conversion of a `long` to `int`. -/
def to_int32 (x : Int) : Int := (x + 2 ^ 31) % 2 ^ 32 - 2 ^ 31

/-- The constant `MAX_THREADS`. -/
def MAX_THREADS : Int := 384

/-- The value of `thread_count` after main.c 274-280; `nprocs` is what
`sysconf(_SC_NPROCESSORS_ONLN)` returns. -/
def main_thread_count (config : MinerConfig) (nprocs : Int) : Int :=
  let thread_count := config.thread_count
  let thread_count := if thread_count < 0 then to_int32 nprocs else thread_count
  if thread_count > MAX_THREADS then MAX_THREADS else thread_count

/-- The indices of `threads` that `main` passes to `pthread_create`
(main.c 287-316), every call succeeding: one per mining worker, then the four
helper threads. -/
def main_thread_indices (config : MinerConfig) (nprocs : Int) : List Int :=
  List.map Int.ofNat (List.range (main_thread_count config nprocs).toNat) ++
    [main_thread_count config nprocs, main_thread_count config nprocs + 1,
     main_thread_count config nprocs + 2, main_thread_count config nprocs + 3]

/-- The number of mining workers `main` starts: the iterations of the loop of
main.c 287-292. -/
def main_worker_count (config : MinerConfig) (nprocs : Int) : Nat :=
  (main_thread_count config nprocs).toNat

/-! ## Attempt counters of a mining worker (`mining_thread`, main.c 33-74) -/

/-- The counters one mining worker works on: its own `local_hash_count`, the
shared `*data->hash_count`, and the amounts this worker has added to the
shared counter so far, latest first. -/
structure WorkerCounters where
  local_hash_count : Nat
  hash_count : Nat
  added : List Nat
deriving DecidableEq, Repr

/-- The test of main.c 40 on the seed of the job slot: no seed, or the seed
`wait`. -/
def is_waiting (seed : Option CString) : Bool :=
  match seed with
  | none => true
  | some s => decide (strcmp s (cstr "wait") = 0)

/-- One iteration of the loop of `mining_thread` as far as the counters go,
`seed` being the seed found in the job slot.  A waiting iteration sleeps and
continues; any other runs one trial, which touches neither counter, and then
main.c 64-70. -/
def mining_thread_counters (seed : Option CString) (st : WorkerCounters) : WorkerCounters :=
  if is_waiting seed then st
  else
    if ((st.local_hash_count + 1) % 2 ^ 64) % 100 = 0 then
      { local_hash_count := 0
        hash_count := counter_step st.hash_count CounterStep.worker_fold
        added := 100 :: st.added }
    else { st with local_hash_count := (st.local_hash_count + 1) % 2 ^ 64 }

/-- The counters after the iterations of one worker, one per entry of `seeds`,
no other thread touching the shared counter in between. -/
def mining_thread_run : List (Option CString) → WorkerCounters → WorkerCounters
  | [], st => st
  | seed :: seeds, st => mining_thread_run seeds (mining_thread_counters seed st)

/-- The number of trials completed in the iterations `seeds`. -/
def completed_trials (seeds : List (Option CString)) : Nat :=
  (seeds.filter fun seed => !is_waiting seed).length

/-- The results of `k` successive calls of `get_next_keypair`, in call order,
and the pool afterwards. -/
def next_keypairs : Nat → KeypairPool → List (Option Keypair) × KeypairPool
  | 0, pool => ([], pool)
  | k + 1, pool =>
    ((get_next_keypair pool).1 :: (next_keypairs k (get_next_keypair pool).2).1,
     (next_keypairs k (get_next_keypair pool).2).2)

/-! ## Lemmas on big-endian values -/

theorem beValue_lt : ∀ l : List Byte, beValue l < 256 ^ l.length
  | [] => by simp [beValue]
  | b :: l => by
    have ih := beValue_lt l
    have hb : b.val + 1 ≤ 256 := b.isLt
    have h1 : (b.val + 1) * 256 ^ l.length ≤ 256 * 256 ^ l.length :=
      Nat.mul_le_mul_right _ hb
    simp only [beValue, List.length_cons, pow_succ]
    have h2 : (b.val + 1) * 256 ^ l.length = b.val * 256 ^ l.length + 256 ^ l.length := by ring
    have h3 : 256 ^ l.length * 256 = 256 * 256 ^ l.length := by ring
    omega

/-- With equally long tails, a smaller leading byte gives a smaller value. -/
theorem beValue_cons_lt (a b : Byte) (l m : List Byte) (hlen : l.length = m.length)
    (hab : a < b) : beValue (a :: l) < beValue (b :: m) := by
  have hl := beValue_lt l
  have hab' : a.val + 1 ≤ b.val := hab
  have h1 : (a.val + 1) * 256 ^ l.length ≤ b.val * 256 ^ l.length :=
    Nat.mul_le_mul_right _ hab'
  have h2 : (a.val + 1) * 256 ^ l.length = a.val * 256 ^ l.length + 256 ^ l.length := by ring
  simp only [beValue, ← hlen]
  omega

theorem drop_eq_getD_cons (l : List Byte) (i : Nat) (h : i < l.length) :
    l.drop i = l.getD i 0 :: l.drop (i + 1) := by
  rw [List.drop_eq_getElem_cons h]
  simp [List.getD_eq_getElem?_getD, List.getElem?_eq_getElem h]

/-- The loop started at index `i` decides the order of the remaining suffixes. -/
theorem meets_difficulty_loop_iff (hash diff : List Byte) :
    ∀ (n i : Nat), i + n = hash.length → i + n = diff.length →
      (meets_difficulty_loop hash diff n i = true ↔
        beValue (hash.drop i) ≤ beValue (diff.drop i))
  | 0, i, h1, h2 => by
    have e1 : hash.drop i = [] := List.drop_eq_nil_of_le (by omega)
    have e2 : diff.drop i = [] := List.drop_eq_nil_of_le (by omega)
    simp [meets_difficulty_loop, e1, e2]
  | n + 1, i, h1, h2 => by
    have ih := meets_difficulty_loop_iff hash diff n (i + 1) (by omega) (by omega)
    have e1 := drop_eq_getD_cons hash i (by omega)
    have e2 := drop_eq_getD_cons diff i (by omega)
    have hlen : (hash.drop (i + 1)).length = (diff.drop (i + 1)).length := by
      simp only [List.length_drop]; omega
    rw [e1, e2]
    unfold meets_difficulty_loop
    by_cases hne : hash.getD i 0 = diff.getD i 0
    · simp only [hne, ne_eq, not_true_eq_false, if_false]
      rw [ih]
      simp only [beValue, hlen]
      omega
    · simp only [ne_eq, hne, not_false_eq_true, if_true]
      by_cases hgt : hash.getD i 0 > diff.getD i 0
      · have := beValue_cons_lt _ _ _ _ hlen.symm hgt
        simp only [hgt, if_true]
        constructor
        · intro h; cases h
        · intro h; omega
      · have hlt : hash.getD i 0 < diff.getD i 0 := by
          rcases lt_trichotomy (hash.getD i 0) (diff.getD i 0) with h | h | h
          · exact h
          · exact absurd h hne
          · exact absurd h hgt
        have := beValue_cons_lt _ _ _ _ hlen hlt
        simp only [hgt, if_false, true_iff]
        omega

/-! ## Lemmas on hash comparison -/

theorem take_succ_drop (l : List Byte) (n i : Nat) (h : i < l.length) :
    (l.drop i).take (n + 1) = l.getD i 0 :: (l.drop (i + 1)).take n := by
  rw [drop_eq_getD_cons l i h, List.take_succ_cons]

theorem compare_hash_scalar_loop_eq (h1 h2 : List Byte) :
    ∀ (n i : Nat), i + n ≤ h1.length → i + n ≤ h2.length →
      compare_hash_scalar_loop h1 h2 n i =
        first_diff_cmp ((h1.drop i).take n) ((h2.drop i).take n)
  | 0, i, _, _ => by simp [compare_hash_scalar_loop, first_diff_cmp]
  | n + 1, i, a1, a2 => by
    have ih := compare_hash_scalar_loop_eq h1 h2 n (i + 1) (by omega) (by omega)
    rw [take_succ_drop h1 n i (by omega), take_succ_drop h2 n i (by omega)]
    simp only [compare_hash_scalar_loop, first_diff_cmp, ih]

theorem first_diff_cmp_self : ∀ l : List Byte, first_diff_cmp l l = 0
  | [] => by simp [first_diff_cmp]
  | a :: l => by simp [first_diff_cmp, first_diff_cmp_self l]

theorem first_diff_cmp_append : ∀ (h b x y : List Byte), h.length = b.length →
    first_diff_cmp (h ++ x) (b ++ y) =
      if h = b then first_diff_cmp x y else first_diff_cmp h b
  | [], [], x, y, _ => by simp
  | [], _ :: _, _, _, hl => by simp at hl
  | _ :: _, [], _, _, hl => by simp at hl
  | a :: h, c :: b, x, y, hl => by
    have ih := first_diff_cmp_append h b x y (by simpa using hl)
    by_cases hac : a = c
    · subst hac
      simpa [first_diff_cmp] using ih
    · simp [first_diff_cmp, hac]

theorem first_diff_cmp_neg_iff : ∀ (h b : List Byte), h.length = b.length →
    (first_diff_cmp h b < 0 ↔ beValue h < beValue b)
  | [], [], _ => by simp [first_diff_cmp, beValue]
  | [], _ :: _, hl => by simp at hl
  | _ :: _, [], hl => by simp at hl
  | a :: h, c :: b, hl => by
    have hl' : h.length = b.length := by simpa using hl
    have ih := first_diff_cmp_neg_iff h b hl'
    by_cases hac : a = c
    · subst hac
      simp only [first_diff_cmp, ne_eq, not_true_eq_false, if_false, ih, beValue, hl']
      omega
    · simp only [first_diff_cmp, ne_eq, hac, not_false_eq_true, if_true]
      by_cases hlt : a < c
      · have := beValue_cons_lt a c h b hl' hlt
        simp [hlt, this]
      · have hgt : c < a := by
          rcases lt_trichotomy a c with h' | h' | h'
          · exact absurd h' hlt
          · exact absurd h' hac
          · exact h'
        have := beValue_cons_lt c a b h hl'.symm hgt
        simp only [hlt, if_false]
        constructor
        · intro h0; omega
        · intro h0; omega

theorem first_diff_cmp_le_iff : ∀ (h b : List Byte), h.length = b.length →
    (first_diff_cmp h b ≤ 0 ↔ beValue h ≤ beValue b)
  | [], [], _ => by simp [first_diff_cmp, beValue]
  | [], _ :: _, hl => by simp at hl
  | _ :: _, [], hl => by simp at hl
  | a :: h, c :: b, hl => by
    have hl' : h.length = b.length := by simpa using hl
    have ih := first_diff_cmp_le_iff h b hl'
    by_cases hac : a = c
    · subst hac
      simp only [first_diff_cmp, ne_eq, not_true_eq_false, if_false, ih, beValue, hl']
      omega
    · simp only [first_diff_cmp, ne_eq, hac, not_false_eq_true, if_true]
      by_cases hlt : a < c
      · have := beValue_cons_lt a c h b hl' hlt
        simp only [hlt, if_true]
        constructor
        · intro _; omega
        · intro _; omega
      · have hgt : c < a := by
          rcases lt_trichotomy a c with h' | h' | h'
          · exact absurd h' hlt
          · exact absurd h' hac
          · exact h'
        have := beValue_cons_lt c a b h hl'.symm hgt
        simp only [hlt, if_false]
        constructor
        · intro h0; omega
        · intro h0; omega

theorem cmpeq_mask_spec : ∀ (v1 v2 : List Byte) (fuel : Nat), v1.length = v2.length →
    v1.length ≤ fuel →
    mm512_cmpeq_epi8_mask v1 v2 < 2 ^ v1.length ∧
    (mm512_cmpeq_epi8_mask v1 v2 = 2 ^ v1.length - 1 ↔ v1 = v2) ∧
    (v1 ≠ v2 →
      ctz_bits fuel (2 ^ v1.length - 1 - mm512_cmpeq_epi8_mask v1 v2) < v1.length ∧
      (if v1.getD (ctz_bits fuel (2 ^ v1.length - 1 - mm512_cmpeq_epi8_mask v1 v2)) 0 <
          v2.getD (ctz_bits fuel (2 ^ v1.length - 1 - mm512_cmpeq_epi8_mask v1 v2)) 0
        then (-1 : Int) else 1) = first_diff_cmp v1 v2)
  | [], [], _, _, _ => by simp [mm512_cmpeq_epi8_mask]
  | [], _ :: _, _, hl, _ => by simp at hl
  | _ :: _, [], _, hl, _ => by simp at hl
  | a :: v1, b :: v2, 0, _, hf => by simp at hf
  | a :: v1, b :: v2, fuel + 1, hl, hf => by
    have hl' : v1.length = v2.length := by simpa using hl
    have hf' : v1.length ≤ fuel := by simpa using hf
    obtain ⟨ih1, ih2, ih3⟩ := cmpeq_mask_spec v1 v2 fuel hl' hf'
    have hpos : 0 < 2 ^ v1.length := Nat.pow_pos (by norm_num)
    have hp : 2 ^ (v1.length + 1) = 2 * 2 ^ v1.length := by ring
    simp only [List.length_cons, mm512_cmpeq_epi8_mask, hp]
    generalize hP : 2 ^ v1.length = P at *
    generalize hm : mm512_cmpeq_epi8_mask v1 v2 = m at *
    by_cases hab : a = b
    · subst hab
      simp only [if_true, List.cons.injEq, true_and, ne_eq]
      refine ⟨by omega, ?_, ?_⟩
      · rw [← ih2]; omega
      · intro hne
        obtain ⟨k1, k2⟩ := ih3 hne
        have hmne : m ≠ P - 1 := fun h => hne (ih2.mp h)
        have e1 : (2 * P - 1 - (1 + 2 * m)) % 2 = 0 := by omega
        have e2 : (2 * P - 1 - (1 + 2 * m)) / 2 = P - 1 - m := by omega
        have e3 : ctz_bits (fuel + 1) (2 * P - 1 - (1 + 2 * m)) =
            1 + ctz_bits fuel (P - 1 - m) := by
          simp only [ctz_bits, e1, e2]; simp
        rw [e3]
        refine ⟨by omega, ?_⟩
        have g1 : ∀ (l : List Byte) (k : Nat), (a :: l).getD (1 + k) 0 = l.getD k 0 := by
          intro l k; rw [Nat.add_comm]; simp
        rw [g1, g1, k2]
        simp [first_diff_cmp]
    · simp only [hab, if_false, List.cons.injEq, false_and, ne_eq, not_false_eq_true,
        true_implies, Nat.zero_add]
      refine ⟨by omega, ?_, ?_⟩
      · constructor
        · intro h; omega
        · intro h; exact absurd h (by simp)
      · have e1 : (2 * P - 1 - 2 * m) % 2 = 1 := by omega
        have e3 : ctz_bits (fuel + 1) (2 * P - 1 - 2 * m) = 0 := by
          simp only [ctz_bits, e1]; simp
        rw [e3]
        simp [first_diff_cmp, hab]

theorem loadu_getD (mem : List Byte) (k : Nat) (hk : k < 64) :
    (mm512_loadu_si512 mem).getD k 0 = mem.getD k 0 := by
  simp [mm512_loadu_si512, List.getD_eq_getElem?_getD, List.getElem?_map, List.getElem?_range hk]

theorem loadu_length (mem : List Byte) : (mm512_loadu_si512 mem).length = 64 := by
  simp [mm512_loadu_si512]

theorem compare_hash_avx512_eq (mem1 mem2 : List Byte) :
    compare_hash_avx512 mem1 mem2 =
      first_diff_cmp (mm512_loadu_si512 mem1) (mm512_loadu_si512 mem2) := by
  obtain ⟨h1, h2, h3⟩ := cmpeq_mask_spec (mm512_loadu_si512 mem1) (mm512_loadu_si512 mem2) 64
    (by simp [loadu_length]) (by simp [loadu_length])
  rw [loadu_length] at h1 h2 h3
  have hc : (0xFFFFFFFFFFFFFFFF : Nat) = 2 ^ 64 - 1 := by norm_num
  unfold compare_hash_avx512
  simp only [hc]
  by_cases heq : mm512_loadu_si512 mem1 = mm512_loadu_si512 mem2
  · rw [if_pos (h2.mpr heq), heq, first_diff_cmp_self]
  · have hne := fun h => heq (h2.mp h)
    rw [if_neg hne]
    obtain ⟨k1, k2⟩ := h3 heq
    have hmod : (2 ^ 64 - 1 - mm512_cmpeq_epi8_mask (mm512_loadu_si512 mem1)
        (mm512_loadu_si512 mem2)) % 2 ^ 64 = 2 ^ 64 - 1 - mm512_cmpeq_epi8_mask
        (mm512_loadu_si512 mem1) (mm512_loadu_si512 mem2) := Nat.mod_eq_of_lt (by omega)
    simp only [builtin_ctzll, hmod]
    rw [← k2, loadu_getD mem1 _ k1, loadu_getD mem2 _ k1]

theorem loadu_append (h a : List Byte) (hh : h.length = 32) :
    mm512_loadu_si512 (h ++ a) = h ++ (List.range 32).map fun k => a.getD k 0 := by
  apply List.ext_getElem
  · simp [mm512_loadu_si512, hh]
  · intro k hk1 hk2
    have hk : k < 64 := by simpa [mm512_loadu_si512] using hk1
    simp only [mm512_loadu_si512, List.getElem_map, List.getElem_range]
    by_cases hlt : k < 32
    · rw [List.getElem_append_left (by omega)]
      simp [List.getD_eq_getElem?_getD, List.getElem?_append_left (show k < h.length by omega),
        List.getElem?_eq_getElem (show k < h.length by omega)]
    · rw [List.getElem_append_right (by omega)]
      simp [List.getD_eq_getElem?_getD,
        List.getElem?_append_right (show h.length ≤ k by omega), hh]

theorem compare_hash_simd_eq (avx512 : Bool) (h b x y : List Byte)
    (hh : h.length = 32) (hb : b.length = 32) :
    compare_hash_simd avx512 (h ++ x) (b ++ y) =
      if h = b then (if avx512 then
        first_diff_cmp ((List.range 32).map fun k => x.getD k 0)
          ((List.range 32).map fun k => y.getD k 0) else 0)
      else first_diff_cmp h b := by
  cases avx512
  · simp only [compare_hash_simd, Bool.false_eq_true, if_false]
    rw [compare_hash_scalar_loop_eq _ _ 32 0 (by simp; omega) (by simp; omega)]
    simp only [List.drop_zero]
    rw [List.take_append_of_le_length (by omega), List.take_append_of_le_length (by omega),
      List.take_of_length_le (by omega), List.take_of_length_le (by omega)]
    by_cases e : h = b
    · simp [e, first_diff_cmp_self]
    · simp [e]
  · simp only [compare_hash_simd, if_true]
    rw [compare_hash_avx512_eq, loadu_append h x hh, loadu_append b y hb,
      first_diff_cmp_append _ _ _ _ (by omega)]

theorem memcpy_simd_full (dest src : List Byte) (n : Nat) (hs : src.length = n)
    (hd : dest.length = n) : memcpy_simd dest src n = src := by
  simp [memcpy_simd, List.take_of_length_le (le_of_eq hs), List.drop_of_length_le (le_of_eq hd)]

theorem update_best_hash_eq (env : SimdEnv) (hash best : List Byte)
    (hh : hash.length = 32) (hb : best.length = 32) :
    update_best_hash env hash best = if beValue hash < beValue best then hash else best := by
  unfold update_best_hash is_hash_better
  rw [compare_hash_simd_eq _ _ _ _ _ hh hb, memcpy_simd_full _ _ _ hh hb]
  by_cases e : hash = best
  · subst e
    simp
  · have := first_diff_cmp_neg_iff hash best (by omega)
    simp only [e, if_false]
    by_cases hlt : beValue hash < beValue best
    · simp [hlt, this.mpr hlt]
    · have : ¬ first_diff_cmp hash best < 0 := fun h => hlt (this.mp h)
      simp [hlt, this]

/-! ## Lemmas on hex rendering -/

theorem hex_digit_eq_table : ∀ n : Nat, n < 16 → hex_digit n = lower_hex_digits.getD n 0 := by
  intro n hn
  interval_cases n <;> decide

theorem hexval_table : ∀ n : Nat, n < 16 → hexval (lower_hex_digits.getD n 0) = n := by
  intro n hn
  interval_cases n <;> decide

theorem isxdigit_table : ∀ n : Nat, n < 16 → isxdigit (lower_hex_digits.getD n 0) = true := by
  intro n hn
  interval_cases n <;> decide

theorem table_mem : ∀ n : Nat, n < 16 → lower_hex_digits.getD n 0 ∈ lower_hex_digits := by
  intro n hn
  interval_cases n <;> decide

theorem sprintf_02x_eq (b : Byte) :
    sprintf_02x b =
      [lower_hex_digits.getD (b.val / 16) 0, lower_hex_digits.getD (b.val % 16) 0] := by
  have h1 : b.val / 16 < 16 := by have := b.isLt; omega
  have h2 : b.val % 16 < 16 := by omega
  simp [sprintf_02x, hex_digit_eq_table _ h1, hex_digit_eq_table _ h2]

theorem hex_loop_eq (src : List Byte) :
    ∀ (n i : Nat), i + n = src.length → hex_loop src n i = hex_encode (src.drop i)
  | 0, i, h => by
    have e : src.drop i = [] := List.drop_eq_nil_of_le (by omega)
    simp [hex_loop, e, hex_encode]
  | n + 1, i, h => by
    have ih := hex_loop_eq src n (i + 1) (by omega)
    rw [drop_eq_getD_cons src i (by omega)]
    simp [hex_loop, ih, hex_encode, sprintf_02x_eq]

theorem hex_encode_length : ∀ bs : List Byte, (hex_encode bs).length = 2 * bs.length
  | [] => by simp [hex_encode]
  | b :: bs => by simp [hex_encode, hex_encode_length bs]; omega

theorem hex_encode_lower : ∀ (bs : List Byte) (c : Byte), c ∈ hex_encode bs →
    c ∈ lower_hex_digits
  | [], c, h => by simp [hex_encode] at h
  | b :: bs, c, h => by
    have h1 : b.val / 16 < 16 := by have := b.isLt; omega
    have h2 : b.val % 16 < 16 := by omega
    simp only [hex_encode, List.mem_cons] at h
    rcases h with h | h | h
    · rw [h]; exact table_mem _ h1
    · rw [h]; exact table_mem _ h2
    · exact hex_encode_lower bs c h

theorem byte_of_nibbles (b : Byte) : (Fin.ofNat (16 * (b.val / 16) + b.val % 16) : Byte) = b := by
  apply Fin.ext
  have := b.isLt
  simp only [Fin.ofNat, Fin.val_mk]
  omega

theorem hex_decode_encode : ∀ bs : List Byte, hex_decode (hex_encode bs) = bs
  | [] => by simp [hex_encode, hex_decode]
  | b :: bs => by
    have h1 : b.val / 16 < 16 := by have := b.isLt; omega
    have h2 : b.val % 16 < 16 := by omega
    simp only [hex_encode, hex_decode, hexval_table _ h1, hexval_table _ h2,
      byte_of_nibbles, hex_decode_encode bs]

theorem hex_loop_full (src : List Byte) (n : Nat) (h : src.length = n) :
    hex_loop src n 0 = hex_encode src := by
  rw [hex_loop_eq src n 0 (by omega), List.drop_zero]

theorem combined_eq (public_key : List Byte) (seed : CString) (h : public_key.length = 65) :
    combined public_key (some seed) = (hex_encode public_key ++ seed).take 1023 := by
  simp [combined, snprintf_ss, percent_s, hex_loop_full public_key 65 h]

theorem meets_difficulty_iff (hash diff : List Byte) (hh : hash.length = 32)
    (hd : diff.length = 32) :
    meets_difficulty hash diff = true ↔ beValue hash ≤ beValue diff := by
  have := meets_difficulty_loop_iff hash diff 32 0 (by omega) (by omega)
  simpa [meets_difficulty] using this

/-! ## Lemmas on sequences of trials -/

theorem mine_block_none {R : Type} (sha256 : List Byte → List Byte) (env : SimdEnv)
    (job : Job R) (st : MineState R) (pool1 : KeypairPool)
    (hk : get_next_keypair st.pool = (none, pool1)) :
    (mine_block sha256 env job st).2.pool = pool1 ∧
    (mine_block sha256 env job st).2.g_best_hash = st.g_best_hash := by
  simp [mine_block, hk]

theorem mine_block_some {R : Type} (sha256 : List Byte → List Byte) (env : SimdEnv)
    (job : Job R) (st : MineState R) (k : Keypair) (pool1 : KeypairPool)
    (hk : get_next_keypair st.pool = (some k, pool1)) :
    (mine_block sha256 env job st).2.pool = pool1 ∧
    (mine_block sha256 env job st).2.g_best_hash =
      update_best_hash env (sha256 (combined k.public_key job.seed)) st.g_best_hash := by
  simp only [mine_block, hk]
  split <;> simp

theorem mine_block_best_le {R : Type} (sha256 : List Byte → List Byte)
    (hsha : ∀ x, (sha256 x).length = 32) (env : SimdEnv) (job : Job R) (st : MineState R)
    (hb : st.g_best_hash.length = 32) :
    (mine_block sha256 env job st).2.g_best_hash.length = 32 ∧
    beValue (mine_block sha256 env job st).2.g_best_hash ≤ beValue st.g_best_hash := by
  rcases hk : get_next_keypair st.pool with ⟨_ | k, pool1⟩
  · rw [(mine_block_none sha256 env job st pool1 hk).2]
    exact ⟨hb, le_refl _⟩
  · rw [(mine_block_some sha256 env job st k pool1 hk).2,
      update_best_hash_eq env _ _ (hsha _) hb]
    split
    · exact ⟨hsha _, by omega⟩
    · exact ⟨hb, le_refl _⟩

theorem run_trials_append {R : Type} (sha256 : List Byte → List Byte) (job : Job R) :
    ∀ (envs : List SimdEnv) (env : SimdEnv) (st : MineState R),
      run_trials sha256 job (envs ++ [env]) st =
        (mine_block sha256 env job (run_trials sha256 job envs st)).2
  | [], env, st => by simp [run_trials]
  | e :: envs, env, st => by
    simp only [List.cons_append, run_trials]
    exact run_trials_append sha256 job envs env _

theorem run_trials_length {R : Type} (sha256 : List Byte → List Byte)
    (hsha : ∀ x, (sha256 x).length = 32) (job : Job R) :
    ∀ (envs : List SimdEnv) (st : MineState R), st.g_best_hash.length = 32 →
      (run_trials sha256 job envs st).g_best_hash.length = 32
  | [], st, hb => by simpa [run_trials] using hb
  | e :: envs, st, hb => by
    simp only [run_trials]
    exact run_trials_length sha256 hsha job envs _ (mine_block_best_le sha256 hsha e job st hb).1

theorem run_trials_min {R : Type} (sha256 : List Byte → List Byte)
    (hsha : ∀ x, (sha256 x).length = 32) (job : Job R) :
    ∀ (envs : List SimdEnv) (st : MineState R), st.g_best_hash.length = 32 →
      (run_trials sha256 job envs st).g_best_hash ∈
          st.g_best_hash :: trial_digests sha256 job.seed envs.length st.pool ∧
      ∀ h, h ∈ st.g_best_hash :: trial_digests sha256 job.seed envs.length st.pool →
        beValue (run_trials sha256 job envs st).g_best_hash ≤ beValue h
  | [], st, _ => by simp [run_trials, trial_digests]
  | e :: envs, st, hb => by
    have hstep := mine_block_best_le sha256 hsha e job st hb
    obtain ⟨ih1, ih2⟩ :=
      run_trials_min sha256 hsha job envs (mine_block sha256 e job st).2 hstep.1
    rcases hk : get_next_keypair st.pool with ⟨_ | k, pool1⟩
    · obtain ⟨e1, e2⟩ := mine_block_none sha256 e job st pool1 hk
      rw [e1, e2] at ih1 ih2
      simp only [run_trials, List.length_cons, trial_digests, hk]
      exact ⟨ih1, ih2⟩
    · obtain ⟨e1, e2⟩ := mine_block_some sha256 e job st k pool1 hk
      rw [e1] at ih1 ih2
      simp only [run_trials, List.length_cons, trial_digests, hk]
      have hupd := update_best_hash_eq e (sha256 (combined k.public_key job.seed))
        st.g_best_hash (hsha _) hb
      rw [← e2] at hupd
      have hfirst := ih2 _ (List.mem_cons_self _ _)
      constructor
      · rcases List.mem_cons.mp ih1 with h | h
        · rw [h, hupd]
          split <;> simp
        · exact List.mem_cons_of_mem _ (List.mem_cons_of_mem _ h)
      · intro h hmem
        rcases List.mem_cons.mp hmem with h1 | h1
        · rw [h1]; exact le_trans hfirst hstep.2
        · rcases List.mem_cons.mp h1 with h2 | h2
          · rw [h2]
            refine le_trans hfirst ?_
            rw [hupd]
            split <;> omega
          · exact ih2 h (List.mem_cons_of_mem _ h2)

/-! ## Lemmas on C string functions -/

theorem strcmp_self : ∀ s : CString, strcmp s s = 0
  | [] => by simp [strcmp]
  | a :: s => by simp [strcmp, strcmp_self s]

theorem strcmp_ne_zero : ∀ (s t : CString), (0 : Byte) ∉ s → (0 : Byte) ∉ t → s ≠ t →
    strcmp s t ≠ 0
  | [], [], _, _, hne => absurd rfl hne
  | [], b :: t, _, ht, _ => by
    have hb : b ≠ 0 := fun h => ht (by simp [h])
    have : b.val ≠ 0 := fun h => hb (Fin.ext h)
    simp only [strcmp]
    omega
  | a :: s, [], hs, _, _ => by
    have ha : a ≠ 0 := fun h => hs (by simp [h])
    have : a.val ≠ 0 := fun h => ha (Fin.ext h)
    simp only [strcmp]
    omega
  | a :: s, b :: t, hs, ht, hne => by
    by_cases hab : a = b
    · subst hab
      have ih := strcmp_ne_zero s t (fun h => hs (List.mem_cons_of_mem _ h))
        (fun h => ht (List.mem_cons_of_mem _ h)) (fun h => hne (by rw [h]))
      simpa [strcmp] using ih
    · have : a.val ≠ b.val := fun h => hab (Fin.ext h)
      simp only [strcmp, ne_eq, hab, not_false_eq_true, if_true]
      omega

theorem starts_with_append : ∀ (key rest : CString), starts_with (key ++ rest) key = true
  | [], rest => by cases rest <;> simp [starts_with]
  | a :: key, rest => by simp [starts_with, starts_with_append key rest]

theorem starts_with_sound : ∀ (s key : CString), starts_with s key = true →
    s = key ++ s.drop key.length
  | s, [], _ => by simp
  | [], _ :: _, h => by simp [starts_with] at h
  | a :: s, b :: key, h => by
    simp only [starts_with, Bool.and_eq_true, decide_eq_true_eq] at h
    have ih := starts_with_sound s key h.2
    simp only [List.cons_append, List.length_cons, List.drop_succ_cons, h.1]
    rw [← ih]

theorem strstr_sound : ∀ (hay needle r : CString), strstr hay needle = some r →
    (∃ pre, hay = pre ++ r) ∧ starts_with r needle = true
  | [], needle, r, h => by
    simp only [strstr] at h
    split at h
    · cases h
      exact ⟨⟨[], rfl⟩, by assumption⟩
    · cases h
  | a :: hay, needle, r, h => by
    simp only [strstr] at h
    split at h
    · cases h
      exact ⟨⟨[], rfl⟩, by assumption⟩
    · obtain ⟨⟨pre, hp⟩, hs⟩ := strstr_sound hay needle r h
      exact ⟨⟨a :: pre, by rw [hp]; rfl⟩, hs⟩

/-- The first occurrence is the one `strstr` returns. -/
theorem strstr_first (key rest : CString) : ∀ (pre : CString),
    (∀ j, j < pre.length → starts_with ((pre ++ key ++ rest).drop j) key = false) →
    strstr (pre ++ key ++ rest) key = some (key ++ rest)
  | [], _ => by
    have h := starts_with_append key rest
    simp only [List.nil_append]
    cases hk : key ++ rest with
    | nil => rw [hk] at h; simp [strstr, h]
    | cons a l => rw [hk] at h; simp [strstr, h]
  | a :: pre, hno => by
    have h0 := hno 0 (by simp)
    simp only [List.drop_zero] at h0
    have ih := strstr_first key rest pre (fun j hj => by
      have := hno (j + 1) (by simp; omega)
      simpa using this)
    simp only [List.cons_append] at h0 ⊢
    simp only [strstr, h0]
    simpa using ih

/-- Some occurrence makes `strstr` succeed, at that occurrence or before it. -/
theorem strstr_complete (key rest : CString) : ∀ (pre : CString),
    ∃ x r, strstr (pre ++ key ++ rest) key = some r ∧ r = x ++ key ++ rest
  | [] => by
    have h := starts_with_append key rest
    refine ⟨[], key ++ rest, ?_, by simp⟩
    simp only [List.nil_append]
    cases hk : key ++ rest with
    | nil => rw [hk] at h; simp [strstr, h]
    | cons a l => rw [hk] at h; simp [strstr, h]
  | a :: pre => by
    obtain ⟨x, r, h1, h2⟩ := strstr_complete key rest pre
    by_cases h0 : starts_with (a :: (pre ++ key ++ rest)) key = true
    · refine ⟨a :: pre, a :: (pre ++ key ++ rest), ?_, by simp⟩
      simp only [List.cons_append]
      simp only [strstr, h0, if_true]
    · refine ⟨x, r, ?_, h2⟩
      simp only [List.cons_append]
      simp only [strstr, h0, if_false]
      exact h1

theorem strchr_sound : ∀ (s : CString) (c : Byte) (r : CString), strchr s c = some r →
    ∃ mid post, s = mid ++ c :: post ∧ r = c :: post ∧ c ∉ mid
  | [], c, r, h => by simp [strchr] at h
  | a :: s, c, r, h => by
    simp only [strchr] at h
    split at h
    · cases h
      rename_i hac
      exact ⟨[], s, by simp [hac], by simp [hac], by simp⟩
    · rename_i hac
      obtain ⟨mid, post, h1, h2, h3⟩ := strchr_sound s c r h
      refine ⟨a :: mid, post, by simp [h1], h2, ?_⟩
      simp only [List.mem_cons, not_or]
      exact ⟨fun e => hac e.symm, h3⟩

theorem strchr_first : ∀ (mid : CString) (c : Byte) (post : CString), c ∉ mid →
    strchr (mid ++ c :: post) c = some (c :: post)
  | [], c, post, _ => by simp [strchr]
  | a :: mid, c, post, h => by
    simp only [List.mem_cons, not_or] at h
    have hac : ¬ a = c := fun e => h.1 e.symm
    simp only [List.cons_append, strchr, hac, if_false]
    exact strchr_first mid c post h.2

theorem strchr_complete : ∀ (s : CString) (c : Byte), c ∈ s → strchr s c ≠ none
  | [], c, h => by simp at h
  | a :: s, c, h => by
    simp only [strchr]
    split
    · simp
    · rename_i hac
      rcases List.mem_cons.mp h with e | e
      · exact absurd e.symm hac
      · exact strchr_complete s c e

/-! ## Lemmas on the job parser -/

theorem take_length_sub (mid : CString) (c : Byte) (post : CString) :
    strncpy (mid ++ c :: post) ((mid ++ c :: post).length - (c :: post).length) = mid := by
  have : (mid ++ c :: post).length - (c :: post).length = mid.length := by simp
  rw [this, strncpy, List.take_left']
  rfl

theorem extract_seed_sound (response seed : CString) (h : extract_seed response = some seed) :
    ∃ pre post, response = pre ++ SEED_KEY ++ seed ++ QUOTE :: post ∧ QUOTE ∉ seed := by
  unfold extract_seed at h
  cases hs : strstr response SEED_KEY with
  | none => simp [hs] at h
  | some r =>
    obtain ⟨⟨pre, hp⟩, hst⟩ := strstr_sound response SEED_KEY r hs
    have hr := starts_with_sound r SEED_KEY hst
    have h8 : SEED_KEY.length = 8 := rfl
    rw [h8] at hr
    simp only [hs] at h
    cases hc : strchr (r.drop 8) QUOTE with
    | none => simp [hc] at h
    | some e =>
      obtain ⟨mid, post, h1, h2, h3⟩ := strchr_sound _ _ _ hc
      simp only [hc] at h
      rw [h1, h2, take_length_sub] at h
      cases h
      refine ⟨pre, post, ?_, h3⟩
      rw [hp, hr, h1]
      simp

theorem extract_seed_first (pre seed post : CString) (hq : QUOTE ∉ seed)
    (hno : ∀ j, j < pre.length →
      starts_with ((pre ++ SEED_KEY ++ seed ++ QUOTE :: post).drop j) SEED_KEY = false) :
    extract_seed (pre ++ SEED_KEY ++ seed ++ QUOTE :: post) = some seed := by
  have e : pre ++ SEED_KEY ++ seed ++ QUOTE :: post =
      pre ++ SEED_KEY ++ (seed ++ QUOTE :: post) := by
    simp
  rw [e] at hno ⊢
  unfold extract_seed
  rw [strstr_first SEED_KEY _ pre hno]
  have hd : (SEED_KEY ++ (seed ++ QUOTE :: post)).drop 8 = seed ++ QUOTE :: post := rfl
  simp only [hd, strchr_first seed QUOTE post hq, take_length_sub]

theorem mem_drop_append (a : CString) (c : Byte) (post : CString) (n : Nat)
    (h : n ≤ a.length) : c ∈ (a ++ c :: post).drop n := by
  rw [List.drop_append_of_le_length h]
  simp

theorem extract_seed_complete (pre mid post : CString) :
    extract_seed (pre ++ SEED_KEY ++ mid ++ QUOTE :: post) ≠ none := by
  have e : pre ++ SEED_KEY ++ mid ++ QUOTE :: post =
      pre ++ SEED_KEY ++ (mid ++ QUOTE :: post) := by
    simp
  rw [e]
  obtain ⟨x, r, h1, h2⟩ := strstr_complete SEED_KEY (mid ++ QUOTE :: post) pre
  unfold extract_seed
  rw [h1]
  have hmem : QUOTE ∈ r.drop 8 := by
    have e2 : r = (x ++ SEED_KEY ++ mid) ++ QUOTE :: post := by rw [h2]; simp
    rw [e2]
    apply mem_drop_append
    have h8 : SEED_KEY.length = 8 := rfl
    simp only [List.length_append, h8]
    omega
  have hc := strchr_complete _ _ hmem
  cases hc2 : strchr (r.drop 8) QUOTE with
  | none => exact absurd hc2 hc
  | some e => simp [hc2]

theorem get_job_eq {R : Type} (atof : CString → R) (strtoull : CString → Nat)
    (uninit : Job R) (response seed : CString) (h : extract_seed response = some seed) :
    get_job atof strtoull uninit (some response) =
      some { seed := some seed
             diff := extract_diff response uninit.diff
             reward :=
               match strstr response REWARD_KEY with
               | none => uninit.reward
               | some reward_start => atof (reward_start.drop 9)
             last_found :=
               match strstr response LASTFOUND_KEY with
               | none => uninit.last_found
               | some last_found_start => strtoull (last_found_start.drop 12) } := by
  simp only [get_job, h]

theorem get_job_none_of_no_seed {R : Type} (atof : CString → R) (strtoull : CString → Nat)
    (uninit : Job R) (response : CString) (h : extract_seed response = none) :
    get_job atof strtoull uninit (some response) = none := by
  simp only [get_job, h]

theorem get_job_seed {R : Type} (atof : CString → R) (strtoull : CString → Nat)
    (uninit : Job R) (response : Option CString) (job : Job R)
    (h : get_job atof strtoull uninit response = some job) :
    ∃ r s, response = some r ∧ extract_seed r = some s ∧ job.seed = some s := by
  cases response with
  | none => simp [get_job] at h
  | some r =>
    cases hs : extract_seed r with
    | none => rw [get_job_none_of_no_seed atof strtoull uninit r hs] at h; cases h
    | some s =>
      rw [get_job_eq atof strtoull uninit r s hs] at h
      cases h
      exact ⟨r, s, rfl, hs, rfl⟩

theorem xdigit_facts (a : Byte) (h : isxdigit a = true) :
    isspace a = false ∧ a.val ≠ 43 ∧ a.val ≠ 45 ∧ a ≠ QUOTE ∧ hexval a < 16 := by
  have hq : a ≠ QUOTE → True := fun _ => trivial
  simp only [isxdigit, Bool.or_eq_true, Bool.and_eq_true, decide_eq_true_eq] at h
  refine ⟨?_, by omega, by omega, ?_, ?_⟩
  · simp only [isspace, Bool.or_eq_false_iff, Bool.and_eq_false_imp, decide_eq_false_iff_not,
      decide_eq_true_eq]
    omega
  · intro e
    have : a.val = 34 := by rw [e]; rfl
    omega
  · unfold hexval
    split
    · omega
    · split
      · omega
      · split <;> omega

theorem ofNat_mod (x : Nat) : (Fin.ofNat (x % 256) : Byte) = Fin.ofNat x := by
  apply Fin.ext
  simp [Fin.ofNat]

theorem sscanf_two_xdigits (a b : Byte) (rest : CString) (ha : isxdigit a = true)
    (hb : isxdigit b = true) :
    sscanf_02hhx (a :: b :: rest) = some (Fin.ofNat (16 * hexval a + hexval b)) := by
  obtain ⟨h1, h2, h3, _, _⟩ := xdigit_facts a ha
  have hor : ¬ (a.val = 43 ∨ a.val = 45) := by omega
  simp only [sscanf_02hhx, List.dropWhile, h1, hor, if_false, ha, hb, if_true, ofNat_mod]

theorem take_succ_set : ∀ (dest : List Byte) (i : Nat) (v : Byte), i < dest.length →
    (dest.set i v).take (i + 1) = dest.take i ++ [v]
  | [], _, _, h => by simp at h
  | _ :: _, 0, _, _ => by simp
  | a :: d, i + 1, v, h => by
    have ih := take_succ_set d i v (by simpa using h)
    simp [ih]

theorem sscanf_hex_loop_eq (hex : CString) (hx : ∀ c, c ∈ hex → isxdigit c = true) :
    ∀ (n i : Nat) (dest : List Byte), hex.length = 2 * (i + n) → dest.length = i + n →
      sscanf_hex_loop hex n i dest = dest.take i ++ hex_decode (hex.drop (i * 2))
  | 0, i, dest, hl, hd => by
    have e : hex.drop (i * 2) = [] := List.drop_eq_nil_of_le (by omega)
    simp [sscanf_hex_loop, e, hex_decode, List.take_of_length_le (show dest.length ≤ i by omega)]
  | n + 1, i, dest, hl, hd => by
    have e1 := drop_eq_getD_cons hex (i * 2) (by omega)
    have e2 := drop_eq_getD_cons hex (i * 2 + 1) (by omega)
    have ha : isxdigit (hex.getD (i * 2) 0) = true := by
      apply hx
      rw [List.getD_eq_getElem?_getD, List.getElem?_eq_getElem (show i * 2 < hex.length by omega)]
      simp
    have hb : isxdigit (hex.getD (i * 2 + 1) 0) = true := by
      apply hx
      rw [List.getD_eq_getElem?_getD,
        List.getElem?_eq_getElem (show i * 2 + 1 < hex.length by omega)]
      simp
    have e3 : (i + 1) * 2 = i * 2 + 1 + 1 := by ring
    rw [e1, e2, ← e3]
    simp only [sscanf_hex_loop, e1]
    rw [e2, sscanf_two_xdigits _ _ _ ha hb]
    simp only []
    rw [sscanf_hex_loop_eq hex hx n (i + 1) _ (by omega) (by simp; omega),
      take_succ_set dest i _ (by omega)]
    simp [hex_decode]

theorem extract_diff_first (pre hex post diff : CString)
    (hx : ∀ c, c ∈ hex → isxdigit c = true) (hlen : hex.length = 64)
    (hd : diff.length = 32)
    (hno : ∀ j, j < pre.length →
      starts_with ((pre ++ DIFF_KEY ++ hex ++ QUOTE :: post).drop j) DIFF_KEY = false) :
    extract_diff (pre ++ DIFF_KEY ++ hex ++ QUOTE :: post) diff = hex_decode hex := by
  have e : pre ++ DIFF_KEY ++ hex ++ QUOTE :: post =
      pre ++ DIFF_KEY ++ (hex ++ QUOTE :: post) := by
    simp
  have hq : QUOTE ∉ hex := fun h => (xdigit_facts _ (hx _ h)).2.2.2.1 rfl
  rw [e] at hno ⊢
  unfold extract_diff
  rw [strstr_first DIFF_KEY _ pre hno]
  have hdrop : (DIFF_KEY ++ (hex ++ QUOTE :: post)).drop 8 = hex ++ QUOTE :: post := rfl
  have hl2 : (hex ++ QUOTE :: post).length - (QUOTE :: post).length = 64 := by simp [hlen]
  simp only [hdrop, strchr_first hex QUOTE post hq, hl2]
  have h3 : strncpy (hex ++ QUOTE :: post) (if 64 < 64 then 64 else 64) = hex := by
    simp only [strncpy, lt_self_iff_false, if_false]
    rw [← hlen, List.take_left']
    rfl
  rw [h3, sscanf_hex_loop_eq hex hx 32 0 diff (by omega) (by omega)]
  simp

/-- The byte lists above spell the string literals of the source. -/
theorem keys_spelled :
    SEED_KEY = cstr "\"seed\":\"" ∧ DIFF_KEY = cstr "\"diff\":\"" ∧
    REWARD_KEY = cstr "\"reward\":" ∧ LASTFOUND_KEY = cstr "\"lastFound\":" ∧
    QUOTE :: [] = cstr "\"" ∧ percent_s none = cstr "(null)" ∧
    lower_hex_digits = cstr "0123456789abcdef" := by decide

theorem hex_decode_getD : ∀ (hex : CString) (i : Nat), 2 * i + 1 < hex.length →
    (hex_decode hex).getD i 0 =
      Fin.ofNat (16 * hexval (hex.getD (2 * i) 0) + hexval (hex.getD (2 * i + 1) 0))
  | [], _, h => by simp at h
  | [_], _, h => by simp at h
  | a :: b :: rest, 0, _ => by simp [hex_decode]
  | a :: b :: rest, i + 1, h => by
    have ih := hex_decode_getD rest i (by simp at h; omega)
    have e1 : 2 * (i + 1) = 2 * i + 1 + 1 := by ring
    have e2 : 2 * (i + 1) + 1 = 2 * i + 1 + 1 + 1 := by ring
    simp only [hex_decode, e1, e2, List.getD_cons_succ, ih]

theorem hex_decode_length : ∀ hex : CString, (hex_decode hex).length = hex.length / 2
  | [] => by simp [hex_decode]
  | [_] => by simp [hex_decode]
  | a :: b :: rest => by
    simp only [hex_decode, List.length_cons, hex_decode_length rest]
    omega

theorem memset_full (dest : List Byte) (h : dest.length = 32) : memset dest 255 32 = all_ff := by
  simp [memset, all_ff, List.drop_of_length_le (le_of_eq h)]

theorem job_changed_of_ne {R : Type} (job new_job : Job R)
    (hnul1 : ∀ s, job.seed = some s → (0 : Byte) ∉ s)
    (hnul2 : ∀ s, new_job.seed = some s → (0 : Byte) ∉ s)
    (hseed : job.seed = none ∨ job.seed ≠ new_job.seed) : job_changed job new_job = true := by
  unfold job_changed
  cases h1 : job.seed with
  | none => simp
  | some s =>
    cases h2 : new_job.seed with
    | none => simp
    | some t =>
      have hne : s ≠ t := by
        rcases hseed with h | h
        · rw [h1] at h; cases h
        · intro e; apply h; rw [h1, h2, e]
      simpa using strcmp_ne_zero s t (hnul1 s h1) (hnul2 t h2) hne

theorem job_changed_same {R : Type} (job new_job : Job R) (s : CString)
    (h1 : job.seed = some s) (h2 : new_job.seed = some s) : job_changed job new_job = false := by
  simp [job_changed, h1, h2, strcmp_self]

/-! ## Lemmas on the generator thread ranges -/

theorem thread_ranges_loop_length (q r : Nat) : ∀ (n i s : Nat),
    (thread_ranges_loop q r n i s).length = n
  | 0, _, _ => rfl
  | n + 1, i, s => by simp [thread_ranges_loop, thread_ranges_loop_length q r n]

theorem thread_ranges_loop_count (q r : Nat) : ∀ (n i s : Nat) (x : Nat × Nat),
    x ∈ thread_ranges_loop q r n i s → x.2 = q ∨ x.2 = q + 1
  | 0, _, _, x, h => by simp [thread_ranges_loop] at h
  | n + 1, i, s, x, h => by
    simp only [thread_ranges_loop, List.mem_cons] at h
    rcases h with h | h
    · rw [h]
      by_cases hi : i < r <;> simp [hi]
    · exact thread_ranges_loop_count q r n _ _ x h

theorem thread_ranges_loop_sum (q r : Nat) : ∀ (n i s : Nat),
    ((thread_ranges_loop q r n i s).map Prod.snd).sum + min i r = n * q + min (i + n) r
  | 0, i, s => by simp [thread_ranges_loop]
  | n + 1, i, s => by
    have ih := thread_ranges_loop_sum q r n (i + 1)
      (s + (q + (if i < r then 1 else 0)))
    have e : (n + 1) * q = n * q + q := by ring
    simp only [thread_ranges_loop, List.map_cons, List.sum_cons, e]
    by_cases hi : i < r
    · simp only [hi, if_true] at ih ⊢
      have h1 : min i r = i := by omega
      have h2 : min (i + 1) r = i + 1 := by omega
      have h3 : i + 1 + n = i + (n + 1) := by ring
      rw [h3] at ih
      omega
    · simp only [hi, if_false] at ih ⊢
      have h1 : min i r = r := by omega
      have h2 : min (i + 1) r = r := by omega
      have h3 : i + 1 + n = i + (n + 1) := by ring
      rw [h3] at ih
      omega

/-- The ranges of the loop tile the interval that starts at `s`. -/
theorem thread_ranges_loop_cover (q r : Nat) : ∀ (n i s k : Nat),
    (∃ x, x ∈ thread_ranges_loop q r n i s ∧ x.1 ≤ k ∧ k < x.1 + x.2) ↔
      s ≤ k ∧ k < s + ((thread_ranges_loop q r n i s).map Prod.snd).sum
  | 0, i, s, k => by simp [thread_ranges_loop]
  | n + 1, i, s, k => by
    have ih := thread_ranges_loop_cover q r n (i + 1) (s + (q + (if i < r then 1 else 0))) k
    simp only [thread_ranges_loop, List.mem_cons, List.map_cons, List.sum_cons]
    constructor
    · rintro ⟨x, hx | hx, h1, h2⟩
      · rw [hx] at h1 h2
        simp only at h1 h2
        omega
      · have := ih.mp ⟨x, hx, h1, h2⟩
        omega
    · rintro ⟨h1, h2⟩
      by_cases hk : k < s + (q + (if i < r then 1 else 0))
      · exact ⟨_, Or.inl rfl, h1, hk⟩
      · obtain ⟨x, hx, h3, h4⟩ := ih.mpr ⟨by omega, by omega⟩
        exact ⟨x, Or.inr hx, h3, h4⟩

theorem thread_ranges_loop_ge (q r : Nat) : ∀ (n i s : Nat) (x : Nat × Nat),
    x ∈ thread_ranges_loop q r n i s → s ≤ x.1
  | 0, _, _, x, h => by simp [thread_ranges_loop] at h
  | n + 1, i, s, x, h => by
    simp only [thread_ranges_loop, List.mem_cons] at h
    rcases h with h | h
    · rw [h]
    · have := thread_ranges_loop_ge q r n _ _ x h
      omega

theorem thread_ranges_loop_pairwise (q r : Nat) : ∀ (n i s : Nat),
    (thread_ranges_loop q r n i s).Pairwise fun a b => a.1 + a.2 ≤ b.1
  | 0, _, _ => by simp [thread_ranges_loop]
  | n + 1, i, s => by
    simp only [thread_ranges_loop, List.pairwise_cons]
    exact ⟨fun x hx => thread_ranges_loop_ge q r n _ _ x hx,
      thread_ranges_loop_pairwise q r n _ _⟩

theorem thread_ranges_loop_chain (q r : Nat) : ∀ (n i s : Nat),
    (thread_ranges_loop q r n i s).Chain' fun a b => b.1 = a.1 + a.2
  | 0, _, _ => by simp [thread_ranges_loop]
  | 1, _, _ => by simp [thread_ranges_loop]
  | n + 2, i, s => by
    have ih := thread_ranges_loop_chain q r (n + 1) (i + 1) (s + (q + (if i < r then 1 else 0)))
    rw [thread_ranges_loop]
    rw [thread_ranges_loop] at ih ⊢
    exact List.Chain'.cons rfl ih

/-! ## Lemmas on the submission -/

theorem strstr_isSome_iff (hay key : CString) :
    (strstr hay key).isSome = true ↔ ∃ pre post, hay = pre ++ key ++ post := by
  constructor
  · intro h
    cases hs : strstr hay key with
    | none => rw [hs] at h; cases h
    | some r =>
      obtain ⟨⟨pre, hp⟩, hst⟩ := strstr_sound hay key r hs
      exact ⟨pre, r.drop key.length, by
        rw [List.append_assoc, ← starts_with_sound r key hst, hp]⟩
  · rintro ⟨pre, post, h⟩
    obtain ⟨x, r, h1, _⟩ := strstr_complete key post pre
    rw [h, h1]
    rfl

theorem public_key_hex_eq {R : Type} (solution : Solution R)
    (h : solution.public_key.length = 65) :
    public_key_hex solution = hex_encode solution.public_key :=
  hex_loop_full _ 65 h

theorem private_key_hex_eq {R : Type} (solution : Solution R)
    (h : solution.private_key.length = 32) :
    private_key_hex solution = hex_encode solution.private_key :=
  hex_loop_full _ 32 h

theorem hex_encode_xdigit : ∀ (bs : List Byte) (c : Byte), c ∈ hex_encode bs →
    isxdigit c = true
  | [], c, h => by simp [hex_encode] at h
  | b :: bs, c, h => by
    have h1 : b.val / 16 < 16 := by have := b.isLt; omega
    have h2 : b.val % 16 < 16 := by omega
    simp only [hex_encode, List.mem_cons] at h
    rcases h with h | h | h
    · rw [h]; exact isxdigit_table _ h1
    · rw [h]; exact isxdigit_table _ h2
    · exact hex_encode_xdigit bs c h

/-- Scanning the hex text of `n` bytes pair by pair gives the bytes back. -/
theorem sscanf_hex_roundtrip (b dest : List Byte) (n : Nat) (hb : b.length = n)
    (hd : dest.length = n) : sscanf_hex_loop (hex_loop b n 0) n 0 dest = b := by
  rw [hex_loop_full b n hb,
    sscanf_hex_loop_eq (hex_encode b) (fun c hc => hex_encode_xdigit b c hc) n 0 dest
      (by rw [hex_encode_length, hb]; omega) (by omega)]
  simp [hex_decode_encode]

theorem url_literal_lengths :
    (cstr "/challenge-solved?holder=").length = 25 ∧ (cstr "&sign=").length = 6 ∧
    (cstr "&hash=").length = 6 ∧ (cstr "&poolsecret=").length = 12 ∧
    (cstr "&key=").length = 5 := by decide

theorem submit_url_eq {R : Type} (config : MinerConfig) (solution : Solution R)
    (signature : CString) (hpk : solution.public_key.length = 65)
    (hsk : solution.private_key.length = 32) :
    submit_url config solution signature =
      (expected_url config.server solution.public_key solution.private_key signature
        (percent_s solution.hash) config.pool_secret).take 2047 := by
  unfold submit_url expected_url
  rw [public_key_hex_eq solution hpk, private_key_hex_eq solution hsk]
  cases hs : config.pool_secret with
  | nil => simp
  | cons a l => simp

/-! ## Lemmas on the worker counters and on successive pool calls -/

theorem completed_trials_cons_waiting (seed : Option CString) (seeds : List (Option CString))
    (h : is_waiting seed = true) :
    completed_trials (seed :: seeds) = completed_trials seeds := by
  simp [completed_trials, List.filter_cons, h]

theorem completed_trials_cons_trial (seed : Option CString) (seeds : List (Option CString))
    (h : is_waiting seed = false) :
    completed_trials (seed :: seeds) = completed_trials seeds + 1 := by
  simp [completed_trials, List.filter_cons, h]

/-- The counters after a run that starts anywhere below 100. -/
theorem mining_thread_run_spec : ∀ (seeds : List (Option CString)) (st : WorkerCounters),
    st.local_hash_count < 100 → st.hash_count < 2 ^ 64 →
    (mining_thread_run seeds st).local_hash_count =
      (st.local_hash_count + completed_trials seeds) % 100 ∧
    (mining_thread_run seeds st).hash_count =
      (st.hash_count + 100 * ((st.local_hash_count + completed_trials seeds) / 100)) % 2 ^ 64 ∧
    (mining_thread_run seeds st).added.sum =
      st.added.sum + 100 * ((st.local_hash_count + completed_trials seeds) / 100) ∧
    (mining_thread_run seeds st).added.length =
      st.added.length + (st.local_hash_count + completed_trials seeds) / 100 ∧
    ((∀ a, a ∈ st.added → a = 100) → ∀ a, a ∈ (mining_thread_run seeds st).added → a = 100)
  | [], st, hl, hh => by
    simp only [mining_thread_run, completed_trials, List.filter_nil, List.length_nil,
      Nat.add_zero]
    exact ⟨by omega, by omega, by omega, by omega, fun h => h⟩
  | seed :: seeds, st, hl, hh => by
    cases hw : is_waiting seed with
    | true =>
      have ih := mining_thread_run_spec seeds st hl hh
      have e : mining_thread_counters seed st = st := by simp [mining_thread_counters, hw]
      rw [completed_trials_cons_waiting seed seeds hw]
      simp only [mining_thread_run, e]
      exact ih
    | false =>
      rw [completed_trials_cons_trial seed seeds hw]
      have hmod : (st.local_hash_count + 1) % 18446744073709551616 =
          st.local_hash_count + 1 := Nat.mod_eq_of_lt (by omega)
      by_cases h99 : (st.local_hash_count + 1) % 100 = 0
      · have e : mining_thread_counters seed st =
            { local_hash_count := 0
              hash_count := (st.hash_count + 100) % 2 ^ 64
              added := 100 :: st.added } := by
          simp [mining_thread_counters, hw, hmod, h99, counter_step]
        obtain ⟨i1, i2, i3, i4, i5⟩ := mining_thread_run_spec seeds _
          (show (WorkerCounters.mk 0 ((st.hash_count + 100) % 2 ^ 64)
            (100 :: st.added)).local_hash_count < 100 by simp)
          (show (WorkerCounters.mk 0 ((st.hash_count + 100) % 2 ^ 64)
            (100 :: st.added)).hash_count < 2 ^ 64 from Nat.mod_lt _ (by norm_num))
        simp only [mining_thread_run, e]
        simp only [List.sum_cons, List.length_cons] at i1 i2 i3 i4
        refine ⟨by rw [i1]; omega, by rw [i2]; omega, by rw [i3]; omega, by rw [i4]; omega, ?_⟩
        intro h
        apply i5
        intro a ha
        rcases List.mem_cons.mp ha with h1 | h1
        · exact h1
        · exact h a h1
      · have e : mining_thread_counters seed st =
            { st with local_hash_count := st.local_hash_count + 1 } := by
          simp [mining_thread_counters, hw, hmod, h99]
        obtain ⟨i1, i2, i3, i4, i5⟩ := mining_thread_run_spec seeds
          { st with local_hash_count := st.local_hash_count + 1 }
          (show st.local_hash_count + 1 < 100 by omega) hh
        simp only [mining_thread_run, e]
        simp only at i1 i2 i3 i4 i5
        have e2 : st.local_hash_count + 1 + completed_trials seeds =
            st.local_hash_count + (completed_trials seeds + 1) := by omega
        rw [e2] at i1 i2 i3 i4
        exact ⟨i1, i2, i3, i4, i5⟩

theorem get_next_keypair_eq (keypairs : List Keypair) (size capacity i : Nat)
    (h1 : 1 ≤ size) (hi : i < size) (hcap : size ≤ keypairs.length) (h64 : size < 2 ^ 64) :
    get_next_keypair ⟨keypairs, size, capacity, i⟩ =
      (keypairs[i]?, ⟨keypairs, size, capacity, (i + 1) % size⟩) := by
  have hne : size ≠ 0 := by omega
  have hlt : i < keypairs.length := by omega
  have hmod : (i + 1) % 18446744073709551616 = i + 1 := Nat.mod_eq_of_lt (by omega)
  simp [get_next_keypair, hne, hmod, List.getD_eq_getElem?_getD, List.getElem?_eq_getElem hlt]

theorem next_keypairs_eq (keypairs : List Keypair) (size capacity : Nat)
    (h1 : 1 ≤ size) (hcap : size ≤ keypairs.length) (h64 : size < 2 ^ 64) :
    ∀ (k i : Nat), i < size →
      next_keypairs k ⟨keypairs, size, capacity, i⟩ =
        ((List.range k).map fun j => keypairs[(i + j) % size]?,
         ⟨keypairs, size, capacity, (i + k) % size⟩)
  | 0, i, hi => by simp [next_keypairs, Nat.mod_eq_of_lt hi]
  | k + 1, i, hi => by
    have ih := next_keypairs_eq keypairs size capacity h1 hcap h64 k ((i + 1) % size)
      (Nat.mod_lt _ (by omega))
    simp only [next_keypairs, get_next_keypair_eq keypairs size capacity i h1 hi hcap h64, ih]
    have e1 : ∀ j, ((i + 1) % size + j) % size = (i + (j + 1)) % size := by
      intro j
      rw [Nat.mod_add_mod]
      congr 1
      omega
    simp only [e1, List.range_succ_eq_map, List.map_cons, List.map_map, Nat.add_zero,
      Nat.mod_eq_of_lt hi]
    rfl

theorem rotation_inj (n i a b : Nat) (ha : a < n) (hb : b < n)
    (h : (i + a) % n = (i + b) % n) : a = b := by
  have h1 : a ≡ b [MOD n] := Nat.ModEq.add_left_cancel' i h
  have h2 : a % n = b % n := h1
  rwa [Nat.mod_eq_of_lt ha, Nat.mod_eq_of_lt hb] at h2

theorem rotation_surj (n i m : Nat) (hi : i < n) (hm : m < n) :
    ∃ j, j < n ∧ (i + j) % n = m := by
  by_cases h : i ≤ m
  · exact ⟨m - i, by omega, by
      have : i + (m - i) = m := by omega
      rw [this, Nat.mod_eq_of_lt hm]⟩
  · exact ⟨m + n - i, by omega, by
      have : i + (m + n - i) = m + n := by omega
      rw [this, Nat.add_mod_right, Nat.mod_eq_of_lt hm]⟩

/-- The rotated index list, spelled out: from `i` up to `n - 1`, then from 0
up to `i - 1`. -/
theorem rotation_order (n i : Nat) (hi : i < n) :
    (List.range n).map (fun j => (i + j) % n) = List.range' i (n - i) ++ List.range i := by
  apply List.ext_getElem
  · simp; omega
  · intro k h1 h2
    have hk : k < n := by simpa using h1
    simp only [List.getElem_map, List.getElem_range]
    by_cases hlt : k < n - i
    · rw [List.getElem_append_left (by simpa using hlt)]
      simp only [List.getElem_range']
      rw [Nat.mod_eq_of_lt (by omega)]
      omega
    · rw [List.getElem_append_right (by simp; omega)]
      simp only [List.getElem_range, List.length_range']
      have e : i + k = (k - (n - i)) + n := by omega
      rw [e, Nat.add_mod_right, Nat.mod_eq_of_lt (by omega)]

/-! ## Theorems for the claims -/

/-- C1: for 32-byte `hash` and `diff`, the difficulty check of `mine_block`
reports a hit exactly when `hash ≤ diff` as 256-bit big-endian integers,
which is the same as the first differing byte (if any) being smaller in
`hash`; in particular equal digest and target are a hit. -/
theorem C1_meets_difficulty_iff_le (hash diff : List Byte)
    (hh : hash.length = 32) (hd : diff.length = 32) :
    (meets_difficulty hash diff = true ↔ beValue hash ≤ beValue diff) ∧
      (meets_difficulty hash diff = true ↔ first_diff_cmp hash diff ≤ 0) ∧
      (hash = diff → meets_difficulty hash diff = true) := by
  have key := meets_difficulty_iff hash diff hh hd
  refine ⟨key, ?_, ?_⟩
  · rw [key, first_diff_cmp_le_iff hash diff (by omega)]
  · intro h
    rw [key, h]

/-- C1 at a concrete input: a digest equal to the target up to the last byte,
which is smaller, is a hit. -/
theorem C1_meets_difficulty_iff_le_witness :
    meets_difficulty (List.replicate 31 7 ++ [3]) (List.replicate 31 7 ++ [4]) = true :=
  (C1_meets_difficulty_iff_le (List.replicate 31 7 ++ [3]) (List.replicate 31 7 ++ [4])
    (by decide) (by decide)).1.mpr (by decide)

/-- C2: when `mine_block`, handed keypair `k` by the pool, reports a hit for
job `job`, the solution it fills has the public and private key of `k`, the
reward of `job`, and as `hash` the 64-character lowercase hex encoding of the
digest of that trial; decoding that hex gives the digest back, and the digest
is `≤ job.diff` as a big-endian integer. -/
theorem C2_solution_on_hit {R : Type} (sha256 : List Byte → List Byte) (env : SimdEnv)
    (job : Job R) (st : MineState R) (k : Keypair) (pool1 : KeypairPool)
    (hk : get_next_keypair st.pool = (some k, pool1))
    (hpk : k.public_key.length = 65) (hsk : k.private_key.length = 32)
    (hs1 : st.solution.public_key.length = 65) (hs2 : st.solution.private_key.length = 32)
    (hsha : (sha256 (combined k.public_key job.seed)).length = 32)
    (hd : job.diff.length = 32)
    (hit : (mine_block sha256 env job st).1 = true) :
    (mine_block sha256 env job st).2.solution.public_key = k.public_key ∧
    (mine_block sha256 env job st).2.solution.private_key = k.private_key ∧
    (mine_block sha256 env job st).2.solution.reward = job.reward ∧
    (mine_block sha256 env job st).2.solution.hash =
      some (hex_encode (sha256 (combined k.public_key job.seed))) ∧
    (hex_encode (sha256 (combined k.public_key job.seed))).length = 64 ∧
    (∀ c, c ∈ hex_encode (sha256 (combined k.public_key job.seed)) →
      c ∈ lower_hex_digits) ∧
    hex_decode (hex_encode (sha256 (combined k.public_key job.seed))) =
      sha256 (combined k.public_key job.seed) ∧
    beValue (sha256 (combined k.public_key job.seed)) ≤ beValue job.diff := by
  have hmeet : meets_difficulty (sha256 (combined k.public_key job.seed)) job.diff = true := by
    by_contra hc
    simp [mine_block, hk, hc] at hit
  have hle := (meets_difficulty_iff _ _ hsha hd).mp hmeet
  simp only [mine_block, hk, hmeet, if_true]
  refine ⟨memcpy_simd_full _ _ _ hpk hs1, memcpy_simd_full _ _ _ hsk hs2, trivial, ?_, ?_,
    hex_encode_lower _, hex_decode_encode _, hle⟩
  · rw [hex_loop_full _ 32 hsha]
  · rw [hex_encode_length, hsha]

/-- C2 at a concrete input: a one-entry pool, a stand-in digest function that
returns 32 zero bytes, and a zero target. -/
theorem C2_solution_on_hit_witness :
    (mine_block (fun _ => List.replicate 32 0) ⟨false, [], []⟩
        (⟨some [97], List.replicate 32 0, 5, 0⟩ : Job Nat)
        ⟨⟨[⟨List.replicate 65 4, List.replicate 32 1⟩], 1, 1, 0⟩, List.replicate 32 255,
          ⟨List.replicate 65 0, List.replicate 32 0, none, 0⟩⟩).2.solution.reward = 5 :=
  (C2_solution_on_hit (fun _ => List.replicate 32 0) ⟨false, [], []⟩
    (⟨some [97], List.replicate 32 0, 5, 0⟩ : Job Nat)
    ⟨⟨[⟨List.replicate 65 4, List.replicate 32 1⟩], 1, 1, 0⟩, List.replicate 32 255,
      ⟨List.replicate 65 0, List.replicate 32 0, none, 0⟩⟩
    ⟨List.replicate 65 4, List.replicate 32 1⟩
    ⟨[⟨List.replicate 65 4, List.replicate 32 1⟩], 1, 1, 0⟩
    (by decide) (by decide) (by decide) (by decide) (by decide) (by decide) (by decide)
    (by decide)).2.2.1

/-- C3 fails for a long seed: with a 65-byte public key and a seed of 894
bytes the string handed to SHA-256 has 1023 bytes, one less than the 130 hex
characters followed by the seed. -/
theorem C3_counterexample :
    (List.replicate 65 (4 : Byte)).length = 65 ∧
    (combined (List.replicate 65 4) (some (List.replicate 894 97))).length = 1023 ∧
    (combined (List.replicate 65 4) (some (List.replicate 894 97))).length ≠
      130 + (List.replicate 894 (97 : Byte)).length ∧
    combined (List.replicate 65 4) (some (List.replicate 894 97)) ≠
      hex_encode (List.replicate 65 4) ++ List.replicate 894 97 := by
  have hl : (combined (List.replicate 65 4) (some (List.replicate 894 97))).length = 1023 := by
    rw [combined_eq _ _ (List.length_replicate 65 4)]
    simp only [List.length_take, List.length_append, hex_encode_length, List.length_replicate]
    decide
  refine ⟨List.length_replicate 65 4, hl, ?_, ?_⟩
  · rw [hl, List.length_replicate]
    decide
  · intro h
    have h2 := congrArg List.length h
    rw [hl] at h2
    simp only [List.length_append, hex_encode_length, List.length_replicate] at h2
    exact absurd h2 (by decide)

/-- C3 (amended): for a 65-byte public key `pk` and a seed, the string that
`mine_block` passes to SHA-256 is the first 1023 bytes of the 130-character
lowercase hex rendering of `pk` followed by the seed; for a seed of at most
893 bytes that is the whole concatenation, of length 130 plus the length of
the seed, with no separator and nothing dropped. -/
theorem C3_combined (pk : List Byte) (seed : CString) (hpk : pk.length = 65) :
    combined pk (some seed) = (hex_encode pk ++ seed).take 1023 ∧
    (hex_encode pk).length = 130 ∧
    (∀ c, c ∈ hex_encode pk → c ∈ lower_hex_digits) ∧
    hex_decode (hex_encode pk) = pk ∧
    (seed.length ≤ 893 →
      combined pk (some seed) = hex_encode pk ++ seed ∧
      (combined pk (some seed)).length = 130 + seed.length) := by
  have hlen : (hex_encode pk).length = 130 := by rw [hex_encode_length, hpk]
  refine ⟨combined_eq pk seed hpk, hlen, hex_encode_lower pk, hex_decode_encode pk, ?_⟩
  intro hs
  have e : combined pk (some seed) = hex_encode pk ++ seed := by
    rw [combined_eq pk seed hpk]
    exact List.take_of_length_le (by simp [hlen]; omega)
  exact ⟨e, by rw [e]; simp [hlen]⟩

/-- C3 (amended) at a concrete input: public key of 65 bytes `04`, seed `abc`. -/
theorem C3_combined_witness :
    (combined (List.replicate 65 4) (some [97, 98, 99])).length = 133 :=
  ((C3_combined (List.replicate 65 4) [97, 98, 99] (by decide)).2.2.2.2 (by decide)).2

/-- C4: for a 32-byte trial digest `hash` and a 32-byte `g_best_hash`, in
either build (scalar or AVX-512) and whatever bytes follow the two buffers in
memory, the best-hash update of `mine_block` leaves `g_best_hash` equal to
`hash` if `hash` is strictly smaller as a big-endian integer and unchanged
otherwise; on a tie the stored value stays, and the scalar comparison does
not report the digest as better. -/
theorem C4_update_best_hash (env : SimdEnv) (hash g_best_hash : List Byte)
    (hh : hash.length = 32) (hb : g_best_hash.length = 32) :
    update_best_hash env hash g_best_hash =
        (if beValue hash < beValue g_best_hash then hash else g_best_hash) ∧
      (hash = g_best_hash → update_best_hash env hash g_best_hash = g_best_hash) ∧
      (hash = g_best_hash →
        is_hash_better false (hash ++ env.after_hash) (g_best_hash ++ env.after_best) = false) := by
  refine ⟨update_best_hash_eq env hash g_best_hash hh hb, ?_, ?_⟩
  · intro e
    rw [update_best_hash_eq env hash g_best_hash hh hb, e]
    simp
  · intro e
    unfold is_hash_better
    rw [compare_hash_simd_eq _ _ _ _ _ hh hb]
    simp [e]

/-- C4 at a concrete input: an AVX-512 build, a digest that is smaller in its
last byte only, and differing bytes behind the two buffers. -/
theorem C4_update_best_hash_witness :
    update_best_hash ⟨true, [1], [0]⟩ (List.replicate 31 7 ++ [3])
        (List.replicate 31 7 ++ [4]) =
      List.replicate 31 7 ++ [3] := by
  have h := (C4_update_best_hash ⟨true, [1], [0]⟩ (List.replicate 31 7 ++ [3])
    (List.replicate 31 7 ++ [4]) (by decide) (by decide)).1
  rw [h]
  decide

/-- C5: starting from `g_best_hash` all 0xFF (its value after a job install),
after any finite sequence of calls of `mine_block` for the same job the
stored best hash is the minimum, as big-endian integers, of all-0xFF and the
digests computed by those calls, and one more call never increases it. -/
theorem C5_best_hash_is_minimum {R : Type} (sha256 : List Byte → List Byte)
    (hsha : ∀ x, (sha256 x).length = 32) (job : Job R) (envs : List SimdEnv)
    (st : MineState R) (hbest : st.g_best_hash = all_ff) :
    (run_trials sha256 job envs st).g_best_hash ∈
        all_ff :: trial_digests sha256 job.seed envs.length st.pool ∧
    (∀ h, h ∈ all_ff :: trial_digests sha256 job.seed envs.length st.pool →
      beValue (run_trials sha256 job envs st).g_best_hash ≤ beValue h) ∧
    (∀ env, beValue (run_trials sha256 job (envs ++ [env]) st).g_best_hash ≤
      beValue (run_trials sha256 job envs st).g_best_hash) := by
  have hb : st.g_best_hash.length = 32 := by rw [hbest]; decide
  obtain ⟨h1, h2⟩ := run_trials_min sha256 hsha job envs st hb
  rw [hbest] at h1 h2
  refine ⟨h1, h2, ?_⟩
  intro env
  rw [run_trials_append]
  exact (mine_block_best_le sha256 hsha env job _
    (run_trials_length sha256 hsha job envs st hb)).2

/-- C5 at a concrete input: two trials over a two-entry pool with a stand-in
digest function that returns 32 copies of the second character of its input. -/
theorem C5_best_hash_is_minimum_witness :
    (run_trials (fun x => List.replicate 32 (x.getD 1 0))
        (⟨some [97], List.replicate 32 0, 5, 0⟩ : Job Nat)
        [⟨false, [], []⟩, ⟨true, [], []⟩]
        ⟨⟨[⟨List.replicate 65 4, List.replicate 32 1⟩,
            ⟨List.replicate 65 3, List.replicate 32 2⟩], 2, 2, 0⟩, all_ff,
          ⟨List.replicate 65 0, List.replicate 32 0, none, 0⟩⟩).g_best_hash ∈
      all_ff :: trial_digests (fun x => List.replicate 32 (x.getD 1 0)) (some [97]) 2
        ⟨[⟨List.replicate 65 4, List.replicate 32 1⟩,
          ⟨List.replicate 65 3, List.replicate 32 2⟩], 2, 2, 0⟩ :=
  (C5_best_hash_is_minimum (fun x => List.replicate 32 (x.getD 1 0))
    (fun _ => List.length_replicate _ _)
    (⟨some [97], List.replicate 32 0, 5, 0⟩ : Job Nat)
    [⟨false, [], []⟩, ⟨true, [], []⟩]
    ⟨⟨[⟨List.replicate 65 4, List.replicate 32 1⟩,
        ⟨List.replicate 65 3, List.replicate 32 2⟩], 2, 2, 0⟩, all_ff,
      ⟨List.replicate 65 0, List.replicate 32 0, none, 0⟩⟩ rfl).1

/-- C6: when the poll of a job-manager step returns a job `new_job` whose seed
differs from the installed seed, or no seed is installed, the job slot
afterwards equals `new_job` in all four fields and `g_best_hash` is all
0xFF.  Seeds are C strings, so they hold no NUL. -/
theorem C6_new_seed_is_installed {R : Type} (atof : CString → R) (strtoull : CString → Nat)
    (uninit : Job R) (response : Option CString) (st : JobState R) (new_job : Job R)
    (hpoll : get_job atof strtoull uninit response = some new_job)
    (hb : st.g_best_hash.length = 32)
    (hnul1 : ∀ s, st.job.seed = some s → (0 : Byte) ∉ s)
    (hnul2 : ∀ s, new_job.seed = some s → (0 : Byte) ∉ s)
    (hseed : st.job.seed = none ∨ st.job.seed ≠ new_job.seed) :
    job_update_thread atof strtoull uninit response st = ⟨new_job, all_ff⟩ ∧
    (job_update_thread atof strtoull uninit response st).job.seed = new_job.seed ∧
    (job_update_thread atof strtoull uninit response st).job.diff = new_job.diff ∧
    (job_update_thread atof strtoull uninit response st).job.reward = new_job.reward ∧
    (job_update_thread atof strtoull uninit response st).job.last_found = new_job.last_found ∧
    (job_update_thread atof strtoull uninit response st).g_best_hash = all_ff := by
  have e : job_update_thread atof strtoull uninit response st = ⟨new_job, all_ff⟩ := by
    simp only [job_update_thread, hpoll, job_update_step,
      job_changed_of_ne st.job new_job hnul1 hnul2 hseed, if_true, memset_full _ hb]
  rw [e]
  exact ⟨rfl, rfl, rfl, rfl, rfl, rfl⟩

/-- C6 at a concrete input: the first poll after start, which finds the seed
`wait` installed and brings the seed `abc`. -/
theorem C6_new_seed_is_installed_witness :
    job_update_thread (fun _ => (1 : Nat)) (fun _ => 2) ⟨none, List.replicate 32 17, 0, 0⟩
        (some (cstr "\"seed\":\"abc\",\"reward\":1,\"lastFound\":2")) (initial_state 0) =
      ⟨⟨some (cstr "abc"), List.replicate 32 17, 1, 2⟩, all_ff⟩ :=
  (C6_new_seed_is_installed (fun _ => (1 : Nat)) (fun _ => 2) ⟨none, List.replicate 32 17, 0, 0⟩
    (some (cstr "\"seed\":\"abc\",\"reward\":1,\"lastFound\":2")) (initial_state 0)
    ⟨some (cstr "abc"), List.replicate 32 17, 1, 2⟩ (by decide) (by decide)
    (by intro s h; cases h; decide) (by intro s h; cases h; decide)
    (Or.inr (by decide))).1

/-- C7: when the poll of a job-manager step returns a job with the same seed
as the installed job, the job slot and `g_best_hash` are unchanged, whatever
the polled `diff`, `reward` and `last_found` are. -/
theorem C7_same_seed_is_noop {R : Type} (atof : CString → R) (strtoull : CString → Nat)
    (uninit : Job R) (response : Option CString) (st : JobState R) (new_job : Job R)
    (hpoll : get_job atof strtoull uninit response = some new_job)
    (hsame : new_job.seed = st.job.seed) :
    job_update_thread atof strtoull uninit response st = st := by
  obtain ⟨r, s, _, _, hs⟩ := get_job_seed atof strtoull uninit response new_job hpoll
  simp only [job_update_thread, hpoll, job_update_step,
    job_changed_same st.job new_job s (by rw [← hsame, hs]) hs]
  simp

/-- C7 at a concrete input: seed `abc` is installed and polled again with
another target, reward and time stamp. -/
theorem C7_same_seed_is_noop_witness :
    job_update_thread (fun _ => (1 : Nat)) (fun _ => 2) ⟨none, List.replicate 32 17, 0, 0⟩
        (some (cstr "\"seed\":\"abc\",\"reward\":1,\"lastFound\":2"))
        ⟨⟨some (cstr "abc"), List.replicate 32 0, 7, 8⟩, List.replicate 32 3⟩ =
      ⟨⟨some (cstr "abc"), List.replicate 32 0, 7, 8⟩, List.replicate 32 3⟩ :=
  C7_same_seed_is_noop (fun _ => (1 : Nat)) (fun _ => 2) ⟨none, List.replicate 32 17, 0, 0⟩
    (some (cstr "\"seed\":\"abc\",\"reward\":1,\"lastFound\":2"))
    ⟨⟨some (cstr "abc"), List.replicate 32 0, 7, 8⟩, List.replicate 32 3⟩
    ⟨some (cstr "abc"), List.replicate 32 17, 1, 2⟩ (by decide) (by decide)

/-- C8: for a response body with no `"seed":"` followed later by a closing
quote, and for a failed HTTP call (`none`), `get_job` returns no job and the
job-manager step leaves the job slot and `g_best_hash` unchanged; from the
state set up by `main` the seed stays `wait`. -/
theorem C8_no_seed_no_job {R : Type} (atof : CString → R) (strtoull : CString → Nat)
    (uninit : Job R) (st : JobState R) (zero : R) (response : CString)
    (hno : ¬ ∃ pre mid post, response = pre ++ SEED_KEY ++ mid ++ QUOTE :: post) :
    get_job atof strtoull uninit (some response) = none ∧
    job_update_thread atof strtoull uninit (some response) st = st ∧
    get_job atof strtoull uninit none = none ∧
    job_update_thread atof strtoull uninit none st = st ∧
    (job_update_thread atof strtoull uninit (some response) (initial_state zero)).job.seed =
      some (cstr "wait") ∧
    (job_update_thread atof strtoull uninit none (initial_state zero)).job.seed =
      some (cstr "wait") := by
  have hs : extract_seed response = none := by
    cases h : extract_seed response with
    | none => rfl
    | some seed =>
      obtain ⟨pre, post, hr, _⟩ := extract_seed_sound response seed h
      exact absurd ⟨pre, seed, post, hr⟩ hno
  have h1 := get_job_none_of_no_seed atof strtoull uninit response hs
  have h2 : get_job atof strtoull uninit none = none := rfl
  have h3 : ∀ s : JobState R, job_update_thread atof strtoull uninit (some response) s = s := by
    intro s; simp only [job_update_thread, h1, job_update_step]
  have h4 : ∀ s : JobState R, job_update_thread atof strtoull uninit none s = s := by
    intro s; simp only [job_update_thread, h2, job_update_step]
  have hw : (initial_state zero).job.seed = some (cstr "wait") :=
    congrArg some (by decide : [119, 97, 105, 116] = cstr "wait")
  refine ⟨h1, h3 st, h2, h4 st, ?_, ?_⟩
  · rw [h3]; exact hw
  · rw [h4]; exact hw

/-- C8 at a concrete input: the body of the scenario "malformed response",
which has a target and a reward but no seed. -/
theorem C8_no_seed_no_job_witness :
    get_job (fun _ => (1 : Nat)) (fun _ => 2) ⟨none, List.replicate 32 17, 0, 0⟩
      (some (cstr ("\"diff\":\"ffffffffffffffffffffffffffffffff" ++
        "ffffffffffffffffffffffffffffffff\",\"reward\":1"))) = none :=
  (C8_no_seed_no_job (fun _ => (1 : Nat)) (fun _ => 2) ⟨none, List.replicate 32 17, 0, 0⟩
    (initial_state 0) 0
    (cstr ("\"diff\":\"ffffffffffffffffffffffffffffffff" ++
      "ffffffffffffffffffffffffffffffff\",\"reward\":1"))
    (fun ⟨pre, mid, post, h⟩ =>
      absurd (show extract_seed (cstr ("\"diff\":\"ffffffffffffffffffffffffffffffff" ++
        "ffffffffffffffffffffffffffffffff\",\"reward\":1")) = none by decide)
        (by rw [h]; exact extract_seed_complete pre mid post))).1

/-- C9 fails: a response with a seed and no `diff` field, and a response with
a seed and the three-character non-hex `diff` value `xyz`, both make
`get_job` return a job, whose `diff` is what the fresh allocation held, and
the job-manager step installs it over the start-up job. -/
theorem C9_counterexample :
    get_job (fun _ => (1 : Nat)) (fun _ => 2) ⟨none, List.replicate 32 17, 0, 0⟩
        (some (cstr "\"seed\":\"abc\"")) =
      some ⟨some (cstr "abc"), List.replicate 32 17, 0, 0⟩ ∧
    get_job (fun _ => (1 : Nat)) (fun _ => 2) ⟨none, List.replicate 32 17, 0, 0⟩
        (some (cstr "\"seed\":\"abc\",\"diff\":\"xyz\"")) =
      some ⟨some (cstr "abc"), List.replicate 32 17, 0, 0⟩ ∧
    job_update_thread (fun _ => (1 : Nat)) (fun _ => 2) ⟨none, List.replicate 32 17, 0, 0⟩
        (some (cstr "\"seed\":\"abc\",\"diff\":\"xyz\"")) (initial_state 0) =
      ⟨⟨some (cstr "abc"), List.replicate 32 17, 0, 0⟩, all_ff⟩ := by
  decide

/-- C9 (amended): `get_job` discards the job exactly when the response has no
`"seed":"` followed later by a closing quote.  A response whose first seed
field holds `seed` yields a job with that seed, whatever its `diff` field
is: absent, short, non-hex or well formed. -/
theorem C9_job_discarded_iff_no_seed {R : Type} (atof : CString → R)
    (strtoull : CString → Nat) (uninit : Job R) (response : CString) :
    (get_job atof strtoull uninit (some response) = none ↔
      ¬ ∃ pre mid post, response = pre ++ SEED_KEY ++ mid ++ QUOTE :: post) ∧
    (∀ pre seed post, response = pre ++ SEED_KEY ++ seed ++ QUOTE :: post →
      QUOTE ∉ seed →
      (∀ j, j < pre.length → starts_with (response.drop j) SEED_KEY = false) →
      ∃ job, get_job atof strtoull uninit (some response) = some job ∧
        job.seed = some seed) := by
  constructor
  · constructor
    · intro h ⟨pre, mid, post, hr⟩
      have hc := extract_seed_complete pre mid post
      rw [← hr] at hc
      cases hs : extract_seed response with
      | none => exact hc hs
      | some s => rw [get_job_eq atof strtoull uninit response s hs] at h; cases h
    · intro hno
      cases hs : extract_seed response with
      | none => exact get_job_none_of_no_seed atof strtoull uninit response hs
      | some seed =>
        obtain ⟨pre, post, hr, _⟩ := extract_seed_sound response seed hs
        exact absurd ⟨pre, seed, post, hr⟩ hno
  · intro pre seed post hr hq hno
    have hs : extract_seed response = some seed := by
      rw [hr] at hno ⊢
      exact extract_seed_first pre seed post hq hno
    exact ⟨_, get_job_eq atof strtoull uninit response seed hs, rfl⟩

/-- C9 (amended) at a concrete input: seed `abc` and the non-hex `diff` value
`xyz`. -/
theorem C9_job_discarded_iff_no_seed_witness :
    ∃ job, get_job (fun _ => (1 : Nat)) (fun _ => 2) ⟨none, List.replicate 32 17, 0, 0⟩
        (some (cstr "\"seed\":\"abc\",\"diff\":\"xyz\"")) = some job ∧
      job.seed = some (cstr "abc") :=
  (C9_job_discarded_iff_no_seed (fun _ => (1 : Nat)) (fun _ => 2)
    ⟨none, List.replicate 32 17, 0, 0⟩ (cstr "\"seed\":\"abc\",\"diff\":\"xyz\"")).2
    [] (cstr "abc") (cstr ",\"diff\":\"xyz\"") (by decide) (by decide) (by decide)

/-- C10: for a response whose first `"seed":"` is followed by `seed` and a
closing quote and whose first `"diff":"` is followed by exactly 64 hex digits
`hex` and a closing quote, `get_job` returns a job whose seed is `seed` and
whose `diff` has 32 bytes, byte `i` being the value of hex digits `2i` and
`2i+1`. -/
theorem C10_get_job_seed_and_diff {R : Type} (atof : CString → R) (strtoull : CString → Nat)
    (uninit : Job R) (response pre1 seed post1 pre2 hex post2 : CString)
    (hu : uninit.diff.length = 32)
    (hseed : response = pre1 ++ SEED_KEY ++ seed ++ QUOTE :: post1)
    (hq : QUOTE ∉ seed)
    (hfirst1 : ∀ j, j < pre1.length → starts_with (response.drop j) SEED_KEY = false)
    (hdiff : response = pre2 ++ DIFF_KEY ++ hex ++ QUOTE :: post2)
    (hfirst2 : ∀ j, j < pre2.length → starts_with (response.drop j) DIFF_KEY = false)
    (hlen : hex.length = 64)
    (hx : ∀ c, c ∈ hex → isxdigit c = true) :
    ∃ job, get_job atof strtoull uninit (some response) = some job ∧
      job.seed = some seed ∧
      job.diff.length = 32 ∧
      job.diff = hex_decode hex ∧
      ∀ i, i < 32 → job.diff.getD i 0 =
        Fin.ofNat (16 * hexval (hex.getD (2 * i) 0) + hexval (hex.getD (2 * i + 1) 0)) := by
  have hs : extract_seed response = some seed := by
    rw [hseed] at hfirst1 ⊢
    exact extract_seed_first pre1 seed post1 hq hfirst1
  have hd : extract_diff response uninit.diff = hex_decode hex := by
    rw [hdiff] at hfirst2 ⊢
    exact extract_diff_first pre2 hex post2 uninit.diff hx hlen hu hfirst2
  refine ⟨_, get_job_eq atof strtoull uninit response seed hs, rfl, ?_, hd, ?_⟩
  · simp only [hd, hex_decode_length, hlen]
  · intro i hi
    simp only [hd]
    exact hex_decode_getD hex i (by omega)

set_option maxRecDepth 8000 in
/-- C10 at a concrete input: seed `abc` and a target of 31 bytes `00` and a
last byte `fF`. -/
theorem C10_get_job_seed_and_diff_witness :
    ∃ job, get_job (fun _ => (1 : Nat)) (fun _ => 2) ⟨none, List.replicate 32 17, 0, 0⟩
        (some (cstr ("\"seed\":\"abc\",\"diff\":\"00000000000000000000000000000000" ++
          "000000000000000000000000000000fF\",\"reward\":1"))) = some job ∧
      job.seed = some (cstr "abc") ∧ job.diff = List.replicate 31 0 ++ [255] := by
  obtain ⟨job, h1, h2, _, h4, _⟩ :=
    C10_get_job_seed_and_diff (fun _ => (1 : Nat)) (fun _ => 2)
      ⟨none, List.replicate 32 17, 0, 0⟩
      (cstr ("\"seed\":\"abc\",\"diff\":\"00000000000000000000000000000000" ++
        "000000000000000000000000000000fF\",\"reward\":1"))
      [] (cstr "abc")
      (cstr (",\"diff\":\"00000000000000000000000000000000" ++
        "000000000000000000000000000000fF\",\"reward\":1"))
      (cstr "\"seed\":\"abc\",")
      (cstr ("00000000000000000000000000000000" ++ "000000000000000000000000000000fF"))
      (cstr ",\"reward\":1")
      (by decide) (by decide) (by decide) (by decide) (by decide) (by decide) (by decide)
      (by decide)
  exact ⟨job, h1, h2, by rw [h4]; decide⟩

/-- C11: for a pool with `size ≥ 1` entries in its array and cursor
`i < size`, `get_next_keypair` returns the entry at index `i`, sets the cursor
to `(i + 1) mod size` and leaves `size`, `capacity` and all entries
unchanged, so the cursor stays below `size`; for a pool with `size = 0` it
returns no keypair and leaves the pool, cursor included, unchanged. -/
theorem C11_get_next_keypair (pool : KeypairPool) :
    (1 ≤ pool.size → pool.current_index < pool.size → pool.size ≤ pool.keypairs.length →
      pool.size < 2 ^ 64 →
      (get_next_keypair pool).1 = pool.keypairs[pool.current_index]? ∧
      (get_next_keypair pool).1 ≠ none ∧
      (get_next_keypair pool).2.current_index = (pool.current_index + 1) % pool.size ∧
      (get_next_keypair pool).2.size = pool.size ∧
      (get_next_keypair pool).2.capacity = pool.capacity ∧
      (get_next_keypair pool).2.keypairs = pool.keypairs ∧
      (get_next_keypair pool).2.current_index < (get_next_keypair pool).2.size) ∧
    (pool.size = 0 → get_next_keypair pool = (none, pool)) := by
  constructor
  · intro h1 hi hcap h64
    have hne : pool.size ≠ 0 := by omega
    have hlt : pool.current_index < pool.keypairs.length := by omega
    have hmod : (pool.current_index + 1) % 2 ^ 64 = pool.current_index + 1 :=
      Nat.mod_eq_of_lt (by omega)
    simp only [get_next_keypair, hne, if_false, hmod]
    refine ⟨?_, by simp, trivial, trivial, trivial, trivial, Nat.mod_lt _ (by omega)⟩
    simp [List.getD_eq_getElem?_getD, List.getElem?_eq_getElem hlt]
  · intro h0
    simp [get_next_keypair, h0]

/-- C11 at a concrete input: a pool of two entries with the cursor on the
last one; the call hands out that entry and the cursor wraps to 0. -/
theorem C11_get_next_keypair_witness :
    (get_next_keypair ⟨[⟨[4], [1]⟩, ⟨[4], [2]⟩], 2, 2, 1⟩).1 = some ⟨[4], [2]⟩ ∧
    (get_next_keypair ⟨[⟨[4], [1]⟩, ⟨[4], [2]⟩], 2, 2, 1⟩).2.current_index = (1 + 1) % 2 :=
  ⟨((C11_get_next_keypair ⟨[⟨[4], [1]⟩, ⟨[4], [2]⟩], 2, 2, 1⟩).1
      (by decide) (by decide) (by decide) (by decide)).1,
   ((C11_get_next_keypair ⟨[⟨[4], [1]⟩, ⟨[4], [2]⟩], 2, 2, 1⟩).1
      (by decide) (by decide) (by decide) (by decide)).2.2.1⟩

/-- C12 fails on the code: `pregenerate_keypairs` sets `size` to the clamped
count whenever it returns, whatever the generator threads did.  With a random
number generator that fails on every call, the call for 2 keypairs returns
with `size = 2`, the two entries being what the array held before, whose
secret key the verifier rejects. -/
theorem C12_size_set_after_failed_generation :
    (∀ (o : GenOracle) (fuel : Nat) (pool : KeypairPool) (count : Nat) (p : KeypairPool),
      pregenerate_keypairs o fuel pool count = some p →
      p.size = if count > pool.capacity then pool.capacity else count) ∧
    pregenerate_keypairs failing_rng 8
        ⟨[⟨List.replicate 65 0, List.replicate 32 0⟩,
          ⟨List.replicate 65 0, List.replicate 32 0⟩], 0, 2, 0⟩ 2 =
      some ⟨[⟨List.replicate 65 0, List.replicate 32 0⟩,
             ⟨List.replicate 65 0, List.replicate 32 0⟩], 2, 2, 0⟩ ∧
    failing_rng.seckey_verify (List.replicate 32 0) = false := by
  refine ⟨?_, by decide, by decide⟩
  intro o fuel pool count p h
  unfold pregenerate_keypairs at h
  split at h
  · cases h
  · cases h
    rfl

/-- C13 fails for long configuration strings: with a server of 800
characters and a pool secret of 900, the URL built has 2047 characters while
the full string with all five parameters has 2152, so the end of the `key`
parameter is missing. -/
theorem C13_counterexample :
    (submit_url
      { default_config with server := List.replicate 800 97, pool_secret := List.replicate 900 98 }
      (⟨List.replicate 65 4, List.replicate 32 1, some (List.replicate 64 48), 0⟩ : Solution Nat)
      (List.replicate 140 48)).length = 2047 ∧
    (expected_url (List.replicate 800 97) (List.replicate 65 4) (List.replicate 32 1)
      (List.replicate 140 48) (List.replicate 64 48) (List.replicate 900 98)).length = 2152 ∧
    submit_url
      { default_config with server := List.replicate 800 97, pool_secret := List.replicate 900 98 }
      (⟨List.replicate 65 4, List.replicate 32 1, some (List.replicate 64 48), 0⟩ : Solution Nat)
      (List.replicate 140 48) ≠
    expected_url (List.replicate 800 97) (List.replicate 65 4) (List.replicate 32 1)
      (List.replicate 140 48) (List.replicate 64 48) (List.replicate 900 98) := by
  obtain ⟨l1, l2, l3, l4, l5⟩ := url_literal_lengths
  have hne : List.replicate 900 (98 : Byte) ≠ [] := by
    intro h
    have := congrArg List.length h
    rw [List.length_replicate] at this
    exact absurd this (by decide)
  have he : (expected_url (List.replicate 800 97) (List.replicate 65 4) (List.replicate 32 1)
      (List.replicate 140 48) (List.replicate 64 48) (List.replicate 900 98)).length = 2152 := by
    simp only [expected_url, hne, if_false, List.length_append, List.length_replicate,
      hex_encode_length, l1, l2, l3, l4, l5]
  have hu : (submit_url
      { default_config with server := List.replicate 800 97, pool_secret := List.replicate 900 98 }
      (⟨List.replicate 65 4, List.replicate 32 1, some (List.replicate 64 48), 0⟩ : Solution Nat)
      (List.replicate 140 48)).length = 2047 := by
    rw [submit_url_eq _ _ _ (List.length_replicate 65 4) (List.length_replicate 32 1)]
    simp only [percent_s, List.length_take, he]
    decide
  refine ⟨hu, he, ?_⟩
  intro h
  have h2 := congrArg List.length h
  rw [hu, he] at h2
  exact absurd h2 (by decide)

/-- C13 (amended): for a solution with a 65-byte public key and a 32-byte
private key, the URL built by `submit_solution` is the first 2047 characters
of `{server}/challenge-solved?holder=<pk hex>&sign=<der hex>&hash=<hash>`,
followed by `&poolsecret=<pool_secret>&key=<sk hex>` exactly when
`pool_secret` is not empty; when that string has at most 2047 characters the
URL is the whole of it. -/
theorem C13_submit_url {R : Type} (config : MinerConfig) (solution : Solution R)
    (signature : CString) (hpk : solution.public_key.length = 65)
    (hsk : solution.private_key.length = 32) :
    submit_url config solution signature =
      (expected_url config.server solution.public_key solution.private_key signature
        (percent_s solution.hash) config.pool_secret).take 2047 ∧
    ((expected_url config.server solution.public_key solution.private_key signature
        (percent_s solution.hash) config.pool_secret).length ≤ 2047 →
      submit_url config solution signature =
        expected_url config.server solution.public_key solution.private_key signature
          (percent_s solution.hash) config.pool_secret) ∧
    (config.pool_secret = [] →
      expected_url config.server solution.public_key solution.private_key signature
          (percent_s solution.hash) config.pool_secret =
        config.server ++ cstr "/challenge-solved?holder=" ++ hex_encode solution.public_key ++
          cstr "&sign=" ++ signature ++ cstr "&hash=" ++ percent_s solution.hash) ∧
    (config.pool_secret ≠ [] →
      expected_url config.server solution.public_key solution.private_key signature
          (percent_s solution.hash) config.pool_secret =
        config.server ++ cstr "/challenge-solved?holder=" ++ hex_encode solution.public_key ++
          cstr "&sign=" ++ signature ++ cstr "&hash=" ++ percent_s solution.hash ++
          (cstr "&poolsecret=" ++ config.pool_secret ++ cstr "&key=" ++
            hex_encode solution.private_key)) := by
  have h := submit_url_eq config solution signature hpk hsk
  refine ⟨h, ?_, ?_, ?_⟩
  · intro hl
    rw [h, List.take_of_length_le hl]
  · intro he
    simp [expected_url, he]
  · intro hne
    simp [expected_url, hne]

set_option maxRecDepth 20000 in
/-- C13 (amended) at a concrete input: the default server, the pool secret
`abcd`, a 70-byte signature. -/
theorem C13_submit_url_witness :
    submit_url { default_config with pool_secret := cstr "abcd" }
        (⟨List.replicate 65 4, List.replicate 32 1, some (List.replicate 64 48), 0⟩ :
          Solution Nat)
        (List.replicate 140 48) =
      cstr "https://clc.ix.tc" ++ cstr "/challenge-solved?holder=" ++
        hex_encode (List.replicate 65 4) ++ cstr "&sign=" ++ List.replicate 140 48 ++
        cstr "&hash=" ++ List.replicate 64 48 ++
        (cstr "&poolsecret=" ++ cstr "abcd" ++ cstr "&key=" ++
          hex_encode (List.replicate 32 1)) := by
  have h := C13_submit_url { default_config with pool_secret := cstr "abcd" }
    (⟨List.replicate 65 4, List.replicate 32 1, some (List.replicate 64 48), 0⟩ : Solution Nat)
    (List.replicate 140 48) (by decide) (by decide)
  rw [h.2.1 (by decide), h.2.2.2 (by decide)]
  rfl

/-- C14: when signing and DER serialization succeed, `submit_solution`
requests exactly one URL, the one built from the configuration, the solution
and the signature, and returns true exactly when that request returned a body
that contains `success`; a failed request (`none`) and a body without
`success` give false. -/
theorem C14_submit_result {R : Type} (o : SubmitOracle) (uninit : List Byte)
    (config : MinerConfig) (solution : Solution R) (sig sig_der : List Byte)
    (hsign : o.ecdsa_sign (o.sha256 (public_key_hex solution))
      (privkey_bytes solution uninit) = some sig)
    (hder : o.serialize_der sig = some sig_der) :
    ((submit_solution o uninit config solution).1 = true ↔
      ∃ body, o.make_request (submit_url config solution
          (hex_loop sig_der sig_der.length 0)) = some body ∧
        ∃ pre post, body = pre ++ cstr "success" ++ post) ∧
    (o.make_request (submit_url config solution (hex_loop sig_der sig_der.length 0)) = none →
      (submit_solution o uninit config solution).1 = false) ∧
    (submit_solution o uninit config solution).2 =
      [submit_url config solution (hex_loop sig_der sig_der.length 0)] := by
  cases hreq : o.make_request (submit_url config solution (hex_loop sig_der sig_der.length 0)) with
  | none =>
    simp [submit_solution, hsign, hder, hreq]
  | some body =>
    simp only [submit_solution, hsign, hder, hreq, strstr_isSome_iff]
    simp

/-- C14 at a concrete input: a server that answers every request with the
body `"status":"success"`; the call returns true. -/
theorem C14_submit_result_witness :
    (submit_solution
      ⟨fun _ => List.replicate 32 0, fun _ _ => some [1], fun _ => some [48, 6],
        fun _ => some (cstr "\"status\":\"success\"")⟩
      (List.replicate 32 0) default_config
      (⟨List.replicate 65 4, List.replicate 32 1, some (List.replicate 64 48), 0⟩ :
        Solution Nat)).1 = true :=
  (C14_submit_result
    ⟨fun _ => List.replicate 32 0, fun _ _ => some [1], fun _ => some [48, 6],
      fun _ => some (cstr "\"status\":\"success\"")⟩
    (List.replicate 32 0) default_config
    (⟨List.replicate 65 4, List.replicate 32 1, some (List.replicate 64 48), 0⟩ :
      Solution Nat) [1] [48, 6] rfl rfl).1.mpr
    ⟨cstr "\"status\":\"success\"", rfl, cstr "\"status\":\"", cstr "\"", by decide⟩

/-- C15: scanning the lowercase hex text of a 32-byte buffer pair by pair
with `sscanf("%02hhx")`, as `submit_solution` does with `private_key_hex`,
gives the buffer back whatever the target array held before, so the key handed
to the signer is `solution.private_key`; the same holds for a 65-byte buffer,
and for hex decoding of the hex encoding of any buffer. -/
theorem C15_hex_roundtrip {R : Type} (solution : Solution R) (uninit : List Byte)
    (hsk : solution.private_key.length = 32) (hu : uninit.length = 32) :
    privkey_bytes solution uninit = solution.private_key ∧
    (∀ (o : SubmitOracle) (hash : List Byte),
      o.ecdsa_sign hash (privkey_bytes solution uninit) =
        o.ecdsa_sign hash solution.private_key) ∧
    (∀ b dest : List Byte, b.length = 32 → dest.length = 32 →
      sscanf_hex_loop (hex_loop b 32 0) 32 0 dest = b) ∧
    (∀ b dest : List Byte, b.length = 65 → dest.length = 65 →
      sscanf_hex_loop (hex_loop b 65 0) 65 0 dest = b) ∧
    (∀ b : List Byte, hex_decode (hex_encode b) = b) := by
  have h : privkey_bytes solution uninit = solution.private_key :=
    sscanf_hex_roundtrip _ _ 32 hsk hu
  refine ⟨h, ?_, ?_, ?_, hex_decode_encode⟩
  · intro o hash
    rw [h]
  · intro b dest hb hd
    exact sscanf_hex_roundtrip b dest 32 hb hd
  · intro b dest hb hd
    exact sscanf_hex_roundtrip b dest 65 hb hd

/-- C15 at a concrete input: a private key of 31 bytes `00` and a last byte
`ff`, scanned into an array that held 32 bytes `11`. -/
theorem C15_hex_roundtrip_witness :
    privkey_bytes (⟨List.replicate 65 4, List.replicate 31 0 ++ [255], none, 0⟩ : Solution Nat)
      (List.replicate 32 17) = List.replicate 31 0 ++ [255] :=
  (C15_hex_roundtrip
    (⟨List.replicate 65 4, List.replicate 31 0 ++ [255], none, 0⟩ : Solution Nat)
    (List.replicate 32 17) (by decide) (by decide)).1

/-- C16 fails on the code: the speed that the telemetry loop reports is the
sampled count divided by 3, whatever `report_interval` is.  With the default
`report_interval` of 10 and a count of 3000 the reported speed is 1000, not
3000 / 10 = 300. -/
theorem C16_speed_ignores_report_interval :
    (∀ (config : MinerConfig) (c : Nat), config.reporting.report_server ≠ [] →
      config.reporting.report_user ≠ [] →
      report_thread_speed config c = some ((c : ℚ) / 3)) ∧
    default_config.report_interval = 10 ∧
    report_thread_speed
      { default_config with reporting := ⟨cstr "http://r", cstr "u"⟩ } 3000 = some 1000 ∧
    report_thread_speed
      { default_config with reporting := ⟨cstr "http://r", cstr "u"⟩ } 3000 ≠
        some (((3000 : Nat) : ℚ) / ((default_config.report_interval : Int) : ℚ)) := by
  have hall : ∀ (config : MinerConfig) (c : Nat), config.reporting.report_server ≠ [] →
      config.reporting.report_user ≠ [] →
      report_thread_speed config c = some ((c : ℚ) / 3) := by
    intro config c h1 h2
    have l1 : config.reporting.report_server.length > 0 := List.length_pos.mpr h1
    have l2 : config.reporting.report_user.length ≠ 0 := fun h => h2 (List.length_eq_zero.mp h)
    have l3 : config.reporting.report_server.length ≠ 0 := by omega
    simp [report_thread_speed, report_status_reports, report_hash_rate, l1, l2, l3]
  have hs : report_thread_speed
      { default_config with reporting := ⟨cstr "http://r", cstr "u"⟩ } 3000 = some 1000 := by
    rw [hall _ 3000 (by decide) (by decide)]
    norm_num
  have hr : default_config.report_interval = 10 := rfl
  refine ⟨hall, hr, hs, ?_⟩
  rw [hs, hr]
  norm_num

/-- C17 fails for the hash-rate printer: one iteration of `hash_rate_thread`
on a counter of 500 leaves it at 0. -/
theorem C17_counterexample :
    counter_step 500 CounterStep.hash_rate_tick = 0 ∧
    counter_step 500 CounterStep.hash_rate_tick < 500 ∧
    counter_step 500 CounterStep.hash_rate_tick ≠ 500 := by decide

/-- C17 (amended): of the steps on `hash_count`, the worker fold adds 100 and
so does not lower it as long as the 64-bit counter does not wrap; an iteration
of the telemetry loop and an iteration of the hash-rate printer each read the
counter and set it to 0.  A step that lowers `hash_count` is therefore a
telemetry tick or a printer tick. -/
theorem C17_counter_steps (c : Nat) (s : CounterStep) (hc : c + 100 < 2 ^ 64) :
    counter_step c CounterStep.worker_fold = c + 100 ∧
    counter_step c CounterStep.hash_rate_tick = 0 ∧
    counter_read c CounterStep.hash_rate_tick = some c ∧
    counter_step c CounterStep.report_tick = 0 ∧
    counter_read c CounterStep.report_tick = some c ∧
    (counter_step c s < c → s = CounterStep.hash_rate_tick ∨ s = CounterStep.report_tick) := by
  have hw : counter_step c CounterStep.worker_fold = c + 100 := by
    simp only [counter_step]
    exact Nat.mod_eq_of_lt hc
  refine ⟨hw, rfl, rfl, rfl, rfl, ?_⟩
  intro h
  cases s with
  | worker_fold => rw [hw] at h; omega
  | hash_rate_tick => exact Or.inl rfl
  | report_tick => exact Or.inr rfl

/-- C17 (amended) at a concrete input: a worker fold on a counter of 500. -/
theorem C17_counter_steps_witness :
    counter_step 500 CounterStep.worker_fold = 500 + 100 :=
  (C17_counter_steps 500 CounterStep.worker_fold (by decide)).1

/-- C18: for a configured thread value `t` and an online CPU count `n ≥ 1`
that fits an `int`, `main` starts `min(384, n)` mining workers when `t < 0` and
`min(384, t)` when `t ≥ 0`; that is never more than 384, and every index of
the thread-handle array it uses, the last being the worker count plus 3, is
below `MAX_THREADS + 4`. -/
theorem C18_worker_count (config : MinerConfig) (nprocs : Int) (hn : 1 ≤ nprocs)
    (hfit : nprocs < 2 ^ 31) :
    (config.thread_count < 0 →
      (main_worker_count config nprocs : Int) = min 384 nprocs) ∧
    (0 ≤ config.thread_count →
      (main_worker_count config nprocs : Int) = min 384 config.thread_count) ∧
    main_worker_count config nprocs ≤ 384 ∧
    (main_thread_indices config nprocs).length = main_worker_count config nprocs + 4 ∧
    (∀ i, i ∈ main_thread_indices config nprocs →
      0 ≤ i ∧ i ≤ (main_worker_count config nprocs : Int) + 3 ∧ i < MAX_THREADS + 4) := by
  have hwrap : to_int32 nprocs = nprocs := by
    unfold to_int32
    omega
  have hcases : (config.thread_count < 0 → main_thread_count config nprocs = min 384 nprocs) ∧
      (0 ≤ config.thread_count →
        main_thread_count config nprocs = min 384 config.thread_count) := by
    constructor
    · intro ht
      simp only [main_thread_count, ht, if_true, hwrap, MAX_THREADS]
      split <;> omega
    · intro ht
      have : ¬ config.thread_count < 0 := by omega
      simp only [main_thread_count, this, if_false, MAX_THREADS]
      split <;> omega
  have hrange : 0 ≤ main_thread_count config nprocs ∧ main_thread_count config nprocs ≤ 384 := by
    rcases lt_or_le config.thread_count 0 with ht | ht
    · rw [hcases.1 ht]; omega
    · rw [hcases.2 ht]; omega
  have hnat : (main_worker_count config nprocs : Int) = main_thread_count config nprocs := by
    unfold main_worker_count
    omega
  have hlen : (main_thread_indices config nprocs).length =
      main_worker_count config nprocs + 4 := by
    simp only [main_thread_indices, main_worker_count, List.length_append, List.length_map,
      List.length_range, List.length_cons, List.length_nil]
  refine ⟨fun ht => by rw [hnat, hcases.1 ht], fun ht => by rw [hnat, hcases.2 ht],
    by omega, hlen, ?_⟩
  intro i hi
  rw [hnat]
  unfold main_thread_indices at hi
  generalize main_thread_count config nprocs = tc at hi hrange ⊢
  simp only [List.mem_append, List.mem_map, List.mem_range, List.mem_cons,
    List.mem_singleton, List.not_mem_nil, or_false, MAX_THREADS] at hi ⊢
  rcases hi with ⟨k, hk, rfl⟩ | h | h | h | h
  · have : (k : Int) < tc := by omega
    simp only [Int.ofNat_eq_coe]
    omega
  all_goals omega

/-- C18 at a concrete input: the default `thread = -1` on a machine with 1000
CPUs starts 384 workers. -/
theorem C18_worker_count_witness :
    (main_worker_count default_config 1000 : Int) = min 384 1000 :=
  (C18_worker_count default_config 1000 (by decide) (by decide)).1 (by decide)

/-- C19 fails on the code: three of the nine comparisons are one character
short and do not look at the `=`.  The line `report_interval 5`, which has no
`=`, is taken for the `report_interval` key and a NULL pointer goes to `atoi`;
the line `report_user x = bob`, whose key `report_user x` is not a recognized
one, changes `report_user`; so does `report_server x = y` for
`report_server`. -/
theorem C19_short_comparisons :
    load_config_line (fun _ => 0) default_config (cstr "report_interval 5\n") = none ∧
    load_config_line (fun _ => 0) default_config (cstr "report_user x = bob\n") =
      some { default_config with reporting := ⟨[], cstr "bob"⟩ } ∧
    load_config_line (fun _ => 0) default_config (cstr "report_server x = y\n") =
      some { default_config with reporting := ⟨cstr "y", []⟩ } ∧
    load_config_line (fun _ => 0) default_config (cstr "report_users = bob\n") =
      some default_config := by
  decide

/-- C20: for every count `n`, the `(start_index, count)` pairs that
`pregenerate_keypairs` hands to its 24 generator threads are contiguous (the
first starts at 0, each next range starts where the one before ends), pairwise
disjoint, and cover exactly the indices below `n`; each thread's count is
`n / 24` or `n / 24 + 1` and the counts sum to `n`. -/
theorem C20_thread_ranges_partition (n : Nat) :
    (thread_ranges n).length = 24 ∧
    (thread_ranges n).head? = some (0, n / 24 + (if 0 < n % 24 then 1 else 0)) ∧
    (thread_ranges n).Chain' (fun a b => b.1 = a.1 + a.2) ∧
    (thread_ranges n).Pairwise (fun a b => a.1 + a.2 ≤ b.1) ∧
    (∀ k, (∃ x, x ∈ thread_ranges n ∧ x.1 ≤ k ∧ k < x.1 + x.2) ↔ k < n) ∧
    (∀ x, x ∈ thread_ranges n → x.2 = n / 24 ∨ x.2 = n / 24 + 1) ∧
    ((thread_ranges n).map Prod.snd).sum = n := by
  have hsum : ((thread_ranges n).map Prod.snd).sum = n := by
    have h := thread_ranges_loop_sum (n / 24) (n % 24) 24 0 0
    have hr : n % 24 < 24 := Nat.mod_lt _ (by norm_num)
    have hd := Nat.div_add_mod n 24
    simp only [thread_ranges, num_threads]
    omega
  refine ⟨thread_ranges_loop_length _ _ _ _ _, rfl, thread_ranges_loop_chain _ _ _ _ _,
    thread_ranges_loop_pairwise _ _ _ _ _, ?_, thread_ranges_loop_count _ _ _ _ _, hsum⟩
  intro k
  have h := thread_ranges_loop_cover (n / 24) (n % 24) 24 0 0 k
  have hs : ((thread_ranges_loop (n / 24) (n % 24) 24 0 0).map Prod.snd).sum = n := hsum
  rw [hs] at h
  simp only [thread_ranges, num_threads]
  rw [h]
  omega

/-- C21: a mining worker that starts with local counter 0 has, after any
iterations with `n` completed trials and no other thread touching the shared
counter, a local counter of `n mod 100`, which is below 100; it has added
`n / 100` amounts to `hash_count`, each of them exactly 100, so
`100 * (n / 100)` in all, and the 64-bit shared counter has advanced by that
much. -/
theorem C21_worker_fold (seeds : List (Option CString)) (hash_count : Nat)
    (hh : hash_count < 2 ^ 64) :
    (mining_thread_run seeds ⟨0, hash_count, []⟩).local_hash_count =
      completed_trials seeds % 100 ∧
    (mining_thread_run seeds ⟨0, hash_count, []⟩).local_hash_count < 100 ∧
    (mining_thread_run seeds ⟨0, hash_count, []⟩).added.sum =
      100 * (completed_trials seeds / 100) ∧
    (mining_thread_run seeds ⟨0, hash_count, []⟩).added.length = completed_trials seeds / 100 ∧
    (∀ a, a ∈ (mining_thread_run seeds ⟨0, hash_count, []⟩).added → a = 100) ∧
    (mining_thread_run seeds ⟨0, hash_count, []⟩).hash_count =
      (hash_count + 100 * (completed_trials seeds / 100)) % 2 ^ 64 := by
  obtain ⟨h1, h2, h3, h4, h5⟩ := mining_thread_run_spec seeds ⟨0, hash_count, []⟩
    (by simp) hh
  simp only [Nat.zero_add, List.sum_nil, List.length_nil] at h1 h2 h3 h4
  refine ⟨h1, ?_, h3, h4, h5 (by simp), h2⟩
  rw [h1]
  exact Nat.mod_lt _ (by norm_num)

set_option maxRecDepth 20000 in
/-- C21 at a concrete input: a waiting iteration followed by 101 trials on
the seed `abc`, the shared counter starting at 7. -/
theorem C21_worker_fold_witness :
    (mining_thread_run (some (cstr "wait") :: List.replicate 101 (some (cstr "abc")))
      ⟨0, 7, []⟩).local_hash_count = 1 ∧
    (mining_thread_run (some (cstr "wait") :: List.replicate 101 (some (cstr "abc")))
      ⟨0, 7, []⟩).hash_count = 107 := by
  have h := C21_worker_fold (some (cstr "wait") :: List.replicate 101 (some (cstr "abc"))) 7
    (by decide)
  have hn : completed_trials
      (some (cstr "wait") :: List.replicate 101 (some (cstr "abc"))) = 101 := by decide
  rw [hn] at h
  exact ⟨h.1, h.2.2.2.2.2⟩

/-- C22: for a pool with `n = size ≥ 1` entries in its array and cursor
`i < n`, `n` consecutive calls of `get_next_keypair` return the entries at
indices `i, i+1, ..., n-1, 0, ..., i-1` in that order, which is every index
below `n` exactly once, and leave the pool with cursor `i` again; the `k`-th
call of any run returns the entry at index `(i + k - 1) mod n`, and after `k`
calls the cursor is `(i + k) mod n`. -/
theorem C22_full_rotation (pool : KeypairPool) (h1 : 1 ≤ pool.size)
    (hi : pool.current_index < pool.size) (hcap : pool.size ≤ pool.keypairs.length)
    (h64 : pool.size < 2 ^ 64) :
    (next_keypairs pool.size pool).1 =
      (List.range' pool.current_index (pool.size - pool.current_index) ++
        List.range pool.current_index).map (fun m => pool.keypairs[m]?) ∧
    (next_keypairs pool.size pool).2 = pool ∧
    (List.range' pool.current_index (pool.size - pool.current_index) ++
      List.range pool.current_index).Nodup ∧
    (∀ m, m ∈ List.range' pool.current_index (pool.size - pool.current_index) ++
      List.range pool.current_index ↔ m < pool.size) ∧
    (∀ k, 1 ≤ k → (get_next_keypair (next_keypairs (k - 1) pool).2).1 =
      pool.keypairs[(pool.current_index + k - 1) % pool.size]?) ∧
    (∀ k, (next_keypairs k pool).2.current_index = (pool.current_index + k) % pool.size) := by
  obtain ⟨keypairs, size, capacity, i⟩ := pool
  simp only at h1 hi hcap h64 ⊢
  have hrun := next_keypairs_eq keypairs size capacity h1 hcap h64
  have hord := rotation_order size i hi
  refine ⟨?_, ?_, ?_, ?_, ?_, ?_⟩
  · rw [hrun size i hi, ← hord, List.map_map]
    rfl
  · rw [hrun size i hi]
    simp [Nat.mod_eq_of_lt hi]
  · rw [← hord]
    exact List.Nodup.map_on
      (fun a ha b hb h => rotation_inj size i a b (List.mem_range.mp ha) (List.mem_range.mp hb) h)
      (List.nodup_range size)
  · intro m
    rw [← hord]
    simp only [List.mem_map, List.mem_range]
    constructor
    · rintro ⟨j, _, rfl⟩
      exact Nat.mod_lt _ (by omega)
    · intro hm
      exact rotation_surj size i m hi hm
  · intro k hk
    rw [hrun (k - 1) i hi]
    simp only
    rw [get_next_keypair_eq keypairs size capacity _ h1 (Nat.mod_lt _ (by omega)) hcap h64]
    simp only [List.getElem?_eq_getElem (show (i + (k - 1)) % size < keypairs.length from
      lt_of_lt_of_le (Nat.mod_lt _ (by omega)) hcap)]
    have e : i + k - 1 = i + (k - 1) := by omega
    simp [e, Nat.mod_mod]
  · intro k
    rw [hrun k i hi]

/-- C22 at a concrete input: a pool of three entries with the cursor on the
second; three calls hand out the second, the third and the first entry and
the pool is as before. -/
theorem C22_full_rotation_witness :
    next_keypairs 3 ⟨[⟨[4], [1]⟩, ⟨[4], [2]⟩, ⟨[4], [3]⟩], 3, 3, 1⟩ =
      ([some ⟨[4], [2]⟩, some ⟨[4], [3]⟩, some ⟨[4], [1]⟩],
       ⟨[⟨[4], [1]⟩, ⟨[4], [2]⟩, ⟨[4], [3]⟩], 3, 3, 1⟩) := by
  have h := C22_full_rotation ⟨[⟨[4], [1]⟩, ⟨[4], [2]⟩, ⟨[4], [3]⟩], 3, 3, 1⟩
    (by decide) (by decide) (by decide) (by decide)
  exact Prod.ext (by rw [h.1]; decide) h.2.1

end Miner
